import Mathlib

/-!
Verification of the plastic-automate workspace maintainer.

The program drives an external source-control client (`cm`) to keep a
workspace clean: `ensure_clean` repeatedly queries the workspace status and
undoes every reported change until none remain; `update` runs that loop,
advances the workspace to the latest revision, and runs the loop again.

The embedding models the external world as a scripted list of process
results, consumed one entry per external invocation, and records every
invocation issued and every console line printed.  All functions are
translated from `src/main.rs`; the XML parsing layer models the
`serde_xml_rs` library on the schema the source declares.
-/

namespace PlasticAutomate

/-- Captured result of a completed external process, mirroring
`std::process::Output`: raw stdout and stderr bytes and the exit code. -/
structure Output where
  stdout : List Nat
  stderr : List Nat
  exitCode : Int
deriving DecidableEq

/-- Result of attempting to run an external process: either it ran to
completion with captured output, or it could not be started or run
(the `Err` case of `Command::output()`). -/
inductive ProcResult where
  | ok (out : Output)
  | fail
deriving DecidableEq

/-- One external invocation issued by the program: program name, arguments,
and the working directory it was run in. -/
structure Invocation where
  program : String
  args : List String
  cwd : String
deriving DecidableEq

/-- World state threaded through the program: the remaining scripted
responses of the external tool, the invocations issued so far (in order),
and the console lines printed so far (in order). -/
structure St where
  env : List ProcResult
  calls : List Invocation
  console : List String

/-- Initial state for a run with a given response script. -/
def St.init (env : List ProcResult) : St := ⟨env, [], []⟩

/-- Run one external command: record the invocation and consume the next
scripted response.  An exhausted script behaves as a process that cannot
be run. -/
def runCmd (inv : Invocation) (s : St) : ProcResult × St :=
  match s.env with
  | [] => (.fail, { s with calls := s.calls ++ [inv] })
  | r :: rest => (r, { s with env := rest, calls := s.calls ++ [inv] })

/-- Append diagnostic lines to the console. -/
def emitAll (lines : List String) (s : St) : St :=
  { s with console := s.console ++ lines }

/-- Whether a byte is a UTF-8 continuation byte. -/
def isCont (b : Nat) : Bool := decide (0x80 ≤ b ∧ b ≤ 0xBF)

/-- Valid first-continuation ranges for three-byte UTF-8 leads. -/
def cont2Ok (b b1 : Nat) : Bool :=
  if b = 0xE0 then decide (0xA0 ≤ b1 ∧ b1 ≤ 0xBF)
  else if b = 0xED then decide (0x80 ≤ b1 ∧ b1 ≤ 0x9F)
  else isCont b1

/-- Valid first-continuation ranges for four-byte UTF-8 leads. -/
def cont3Ok (b b1 : Nat) : Bool :=
  if b = 0xF0 then decide (0x90 ≤ b1 ∧ b1 ≤ 0xBF)
  else if b = 0xF4 then decide (0x80 ≤ b1 ∧ b1 ≤ 0x8F)
  else isCont b1

/-- The Unicode replacement character emitted for invalid byte sequences. -/
def replChar : Char := Char.ofNat 0xFFFD

/-- Lossy UTF-8 decoding of a byte list, modelling
`String::from_utf8_lossy`: well-formed sequences decode to their scalar
value, each maximal invalid subpart is replaced by U+FFFD.  Total: no byte
sequence can make it fail. -/
def utf8LossyAux : List Nat → List Char
  | [] => []
  | b :: rest =>
    if b ≤ 0x7F then Char.ofNat b :: utf8LossyAux rest
    else if 0xC2 ≤ b ∧ b ≤ 0xDF then
      match rest with
      | [] => [replChar]
      | b1 :: rest1 =>
        if isCont b1 then
          Char.ofNat ((b - 0xC0) * 0x40 + (b1 - 0x80)) :: utf8LossyAux rest1
        else replChar :: utf8LossyAux (b1 :: rest1)
    else if 0xE0 ≤ b ∧ b ≤ 0xEF then
      match rest with
      | [] => [replChar]
      | b1 :: rest1 =>
        if cont2Ok b b1 then
          match rest1 with
          | [] => [replChar]
          | b2 :: rest2 =>
            if isCont b2 then
              Char.ofNat ((b - 0xE0) * 0x1000 + (b1 - 0x80) * 0x40 + (b2 - 0x80)) ::
                utf8LossyAux rest2
            else replChar :: utf8LossyAux (b2 :: rest2)
        else replChar :: utf8LossyAux (b1 :: rest1)
    else if 0xF0 ≤ b ∧ b ≤ 0xF4 then
      match rest with
      | [] => [replChar]
      | b1 :: rest1 =>
        if cont3Ok b b1 then
          match rest1 with
          | [] => [replChar]
          | b2 :: rest2 =>
            if isCont b2 then
              match rest2 with
              | [] => [replChar]
              | b3 :: rest3 =>
                if isCont b3 then
                  Char.ofNat ((b - 0xF0) * 0x40000 + (b1 - 0x80) * 0x1000 +
                    (b2 - 0x80) * 0x40 + (b3 - 0x80)) :: utf8LossyAux rest3
                else replChar :: utf8LossyAux (b3 :: rest3)
            else replChar :: utf8LossyAux (b2 :: rest2)
        else replChar :: utf8LossyAux (b1 :: rest1)
    else replChar :: utf8LossyAux rest

/-- Lossy UTF-8 conversion from bytes to a string
(`String::from_utf8_lossy`). -/
def from_utf8_lossy (bs : List Nat) : String := ⟨utf8LossyAux bs⟩

/-- Parsed XML node: an element with attributes and children, or text. -/
inductive Xml where
  | elem (name : String) (attrs : List (String × String)) (children : List Xml)
  | text (s : String)

/-- Whether a character may appear in an XML name. -/
def isNameChar (c : Char) : Bool :=
  c.isAlphanum || c == '_' || c == '-' || c == ':' || c == '.'

/-- Drop leading XML whitespace. -/
def skipWs : List Char → List Char
  | [] => []
  | c :: rest =>
    if c == ' ' || c == '\t' || c == '\n' || c == '\r' then skipWs rest
    else c :: rest

/-- Split a leading XML name from the stream. -/
def takeNameAux : List Char → List Char × List Char
  | [] => ([], [])
  | c :: rest =>
    if isNameChar c then
      match takeNameAux rest with
      | (n, r) => (c :: n, r)
    else ([], c :: rest)

/-- Take characters up to (and consuming) a stop character; `none` if the
stop character never occurs. -/
def takeUntil (stop : Char) : List Char → Option (List Char × List Char)
  | [] => none
  | c :: rest =>
    if c == stop then some ([], rest)
    else
      match takeUntil stop rest with
      | some (v, r) => some (c :: v, r)
      | none => none

/-- Take text content up to (not consuming) the next tag opener. -/
def takeTextAux : List Char → List Char × List Char
  | [] => ([], [])
  | c :: rest =>
    if c == '<' then ([], c :: rest)
    else
      match takeTextAux rest with
      | (t, r) => (c :: t, r)

/-- Skip the remainder of an XML prolog, past the closing question mark
and bracket. -/
def skipPrologEnd : List Char → Option (List Char)
  | [] => none
  | '?' :: '>' :: rest => some rest
  | _ :: rest => skipPrologEnd rest

/-- Parse a run of XML attributes `name="value"`. -/
def parseAttrs : Nat → List Char → Except String (List (String × String) × List Char)
  | 0, _ => .error "attribute fuel exhausted"
  | fuel + 1, cs =>
    match skipWs cs with
    | [] => .ok ([], [])
    | c :: rest =>
      if isNameChar c then
        match takeNameAux (c :: rest) with
        | (nameCs, r1) =>
          match skipWs r1 with
          | '=' :: r2 =>
            match skipWs r2 with
            | [] => .error "expected attribute value"
            | q :: r3 =>
              if q == '"' || q == Char.ofNat 39 then
                match takeUntil q r3 with
                | some (v, r4) =>
                  match parseAttrs fuel r4 with
                  | .ok (attrs, r5) => .ok ((⟨nameCs⟩, ⟨v⟩) :: attrs, r5)
                  | .error e => .error e
                | none => .error "unterminated attribute value"
              else .error "expected quoted attribute value"
          | _ => .error "expected equals sign after attribute name"
      else .ok ([], c :: rest)

/-- Parse a sequence of XML nodes, stopping at end of input or at a
closing tag.  Models the parsing layer of `serde_xml_rs` on the subset of
XML the status document uses (elements, attributes, text). -/
def parseNodesF : Nat → List Char → Except String (List Xml × List Char)
  | 0, _ => .error "fuel exhausted"
  | fuel + 1, cs =>
    match cs with
    | [] => .ok ([], [])
    | '<' :: '/' :: _ => .ok ([], cs)
    | '<' :: rest =>
      match takeNameAux rest with
      | ([], _) => .error "expected element name"
      | (nameCs, r1) =>
        match parseAttrs (r1.length + 1) r1 with
        | .error e => .error e
        | .ok (attrs, r2) =>
          match r2 with
          | '/' :: '>' :: r3 =>
            match parseNodesF fuel r3 with
            | .error e => .error e
            | .ok (xs, r4) => .ok (.elem ⟨nameCs⟩ attrs [] :: xs, r4)
          | '>' :: r3 =>
            match parseNodesF fuel r3 with
            | .error e => .error e
            | .ok (children, r4) =>
              match r4 with
              | '<' :: '/' :: r5 =>
                match takeNameAux (skipWs r5) with
                | (closeCs, r6) =>
                  if closeCs == nameCs then
                    match skipWs r6 with
                    | '>' :: r7 =>
                      match parseNodesF fuel r7 with
                      | .error e => .error e
                      | .ok (xs, r8) => .ok (.elem ⟨nameCs⟩ attrs children :: xs, r8)
                    | _ => .error "expected closing bracket"
                  else .error "mismatched end tag"
              | _ => .error "missing end tag"
          | _ => .error "malformed tag"
    | _ =>
      match takeTextAux cs with
      | (txt, rest) =>
        match parseNodesF fuel rest with
        | .error e => .error e
        | .ok (xs, rest2) => .ok (.text ⟨txt⟩ :: xs, rest2)

/-- Parse a whole XML document: optional prolog, then a single root
element, allowing trailing whitespace. -/
def parseXml (s : String) : Except String Xml :=
  let body : Except String (List Char) :=
    match skipWs s.data with
    | '<' :: '?' :: rest =>
      match skipPrologEnd rest with
      | some r => .ok (skipWs r)
      | none => .error "unterminated prolog"
    | other => .ok other
  match body with
  | .error e => .error e
  | .ok cs =>
    match cs with
    | '<' :: _ =>
      match parseNodesF (cs.length + 1) cs with
      | .error e => .error e
      | .ok (xs, rest) =>
        if (skipWs rest).isEmpty then
          match xs with
          | [Xml.elem n a c] => .ok (.elem n a c)
          | [Xml.elem n a c, Xml.text t] =>
            if (skipWs t.data).isEmpty then .ok (.elem n a c)
            else .error "trailing content after root element"
          | _ => .error "expected a single root element"
        else .error "trailing content"
    | _ => .error "expected element"

/-- One reported workspace difference, from the `Change` struct: a file
path and a human-readable size, both defaulted when absent
(`#[serde(default)]`). -/
structure Change where
  path : String
  size : String
deriving DecidableEq

/-- The `Changes` collection: zero or more `Change` entries, defaulted to
empty when absent. -/
structure Changes where
  changes : List Change
deriving DecidableEq

/-- The decoded status document (`StatusOutput`): its `Changes` field is
defaulted to the empty collection when absent. -/
structure StatusOutput where
  changes : Changes
deriving DecidableEq

/-- Display form of a change, from `impl ToString for Change`. -/
def Change.toString (c : Change) : String :=
  "File `" ++ c.path ++ "` of size: " ++ c.size

/-- Child elements with a given tag name. -/
def elemsNamed (name : String) (children : List Xml) : List Xml :=
  children.filter fun c =>
    match c with
    | .elem n _ _ => n == name
    | .text _ => false

/-- The children of an element node (empty for text). -/
def elemChildren : Xml → List Xml
  | .elem _ _ ch => ch
  | .text _ => []

/-- Concatenated text content of a node list; fails if an element occurs
where character data is expected. -/
def textContent : List Xml → Except String String
  | [] => .ok ""
  | .text t :: rest =>
    match textContent rest with
    | .ok r => .ok (t ++ r)
    | .error e => .error e
  | .elem _ _ _ :: _ => .error "expected character data"

/-- Look up a struct field in an element, serde-xml style: an attribute of
that name, else the text content of the first child element of that name,
else absent. -/
def fieldValue (name : String) (attrs : List (String × String))
    (children : List Xml) : Except String (Option String) :=
  match attrs.find? (fun a => a.1 == name) with
  | some a => .ok (some a.2)
  | none =>
    match elemsNamed name children with
    | [] => .ok none
    | e :: _ =>
      match textContent (elemChildren e) with
      | .ok t => .ok (some t)
      | .error err => .error err

/-- Decode one `Change` entry: `Path` and `PrintableSize` fields, both
optional at the schema level and defaulting to the empty string. -/
def decodeChange : Xml → Except String Change
  | .text _ => .error "expected a Change element"
  | .elem _ attrs children =>
    match fieldValue "Path" attrs children with
    | .error e => .error e
    | .ok p =>
      match fieldValue "PrintableSize" attrs children with
      | .error e => .error e
      | .ok sz => .ok ⟨p.getD "", sz.getD ""⟩

/-- Decode a list of `Change` entries in order. -/
def decodeChangeList : List Xml → Except String (List Change)
  | [] => .ok []
  | x :: rest =>
    match decodeChange x with
    | .error e => .error e
    | .ok c =>
      match decodeChangeList rest with
      | .error e => .error e
      | .ok cs => .ok (c :: cs)

/-- Decode the `Changes` collection: the `Change` child elements, in
document order; no entries decodes to the empty collection. -/
def decodeChanges : Xml → Except String Changes
  | .text _ => .error "expected a Changes element"
  | .elem _ _ children =>
    match decodeChangeList (elemsNamed "Change" children) with
    | .error e => .error e
    | .ok cs => .ok ⟨cs⟩

/-- Decode the root document into a `StatusOutput`: an absent `Changes`
child defaults to the empty collection (`#[serde(default)]`). -/
def decodeStatusOutput : Xml → Except String StatusOutput
  | .text _ => .error "expected a document element"
  | .elem _ _ children =>
    match elemsNamed "Changes" children with
    | [] => .ok ⟨⟨[]⟩⟩
    | c :: _ =>
      match decodeChanges c with
      | .error e => .error e
      | .ok cs => .ok ⟨cs⟩

/-- Full deserialization of the captured status text
(`serde_xml_rs::from_str::<StatusOutput>`). -/
def from_str (s : String) : Except String StatusOutput :=
  match parseXml s with
  | .error e => .error e
  | .ok doc => decodeStatusOutput doc

/-- Errors the program can abort with: the external tool could not be run
(`expect("Error during ...")`), or its captured output could not be
deserialized (`expect("Cannot deserialize ...")`, carrying the raw text). -/
inductive Err where
  | toolInvocation (msg : String)
  | decode (raw : String)
deriving DecidableEq

/-- The `cm status --xml --fullpath` invocation. -/
def statusInv (wd : String) : Invocation :=
  ⟨"cm", ["status", "--xml", "--fullpath"], wd⟩

/-- The `cm undo <path>` invocation. -/
def undoInv (path wd : String) : Invocation :=
  ⟨"cm", ["undo", path], wd⟩

/-- The `cm update --last --override --forced` invocation. -/
def updateInv (wd : String) : Invocation :=
  ⟨"cm", ["update", "--last", "--override", "--forced"], wd⟩

/-- Diagnostic lines printed when the `log` toggle is set: the lossily
converted stdout and stderr of the last invocation. -/
def logLines (log : Bool) (out : Output) : List String :=
  if log then
    ["* STDOUT: `" ++ from_utf8_lossy out.stdout ++ "`",
     "* STDERR: `" ++ from_utf8_lossy out.stderr ++ "`"]
  else []

/-- `get_status`: announce when verbose, run `cm status --xml --fullpath`,
log raw output when logging, lossily convert stdout and deserialize it.
A process failure aborts with a tool-invocation error; a deserialization
failure aborts with a decode error carrying the converted text. -/
def get_status (wd : String) (verbose log : Bool) (s : St) :
    Except Err StatusOutput × St :=
  let s0 := emitAll (if verbose then ["* Get workspace status"] else []) s
  let p := runCmd (statusInv wd) s0
  match p.1 with
  | .fail => (.error (.toolInvocation "Error during `cm status`"), p.2)
  | .ok out =>
    let s2 := emitAll (logLines log out) p.2
    match from_str (from_utf8_lossy out.stdout) with
    | .error _ => (.error (.decode (from_utf8_lossy out.stdout)), s2)
    | .ok status => (.ok status, s2)

/-- `undo`: announce when verbose, run `cm undo <path>`, log raw output
when logging.  The exit status and output of the process are ignored;
only a process that cannot run aborts. -/
def undo (c : Change) (wd : String) (verbose log : Bool) (s : St) :
    Except Err Unit × St :=
  let s0 := emitAll (if verbose then ["* Undo change: " ++ c.toString] else []) s
  let p := runCmd (undoInv c.path wd) s0
  match p.1 with
  | .fail => (.error (.toolInvocation "Error during `cm undo`"), p.2)
  | .ok out => (.ok (), emitAll (logLines log out) p.2)

/-- The `for change in changes` loop of `cleanup`: undo each change in
order, aborting on the first failure. -/
def cleanupLoop (changes : List Change) (wd : String) (verbose log : Bool)
    (s : St) : Except Err Unit × St :=
  match changes with
  | [] => (.ok (), s)
  | c :: rest =>
    let p := undo c wd verbose log s
    match p.1 with
    | .error e => (.error e, p.2)
    | .ok _ => cleanupLoop rest wd verbose log p.2

/-- `cleanup`: announce when verbose, then undo every change in order. -/
def cleanup (changes : List Change) (wd : String) (verbose log : Bool)
    (s : St) : Except Err Unit × St :=
  cleanupLoop changes wd verbose log
    (emitAll (if verbose then ["* Undo changes"] else []) s)

/-- Pending-changes announcement printed when verbose. -/
def pendingLines (verbose : Bool) (cs : List Change) : List String :=
  if verbose then
    "* Workspace has pending changes:" :: cs.map (fun c => "- " ++ c.toString)
  else []

/-- The `loop` of `ensure_clean`: query status, stop when the change list
is empty, otherwise undo every change and repeat.  Terminates because
every successful status query consumes one scripted response. -/
def ensureLoop (wd : String) (verbose log : Bool) (s : St) :
    Except Err Unit × St :=
  match h1 : (get_status wd verbose log s).1 with
  | .error e => (.error e, (get_status wd verbose log s).2)
  | .ok status =>
    if status.changes.changes.isEmpty then
      (.ok (), (get_status wd verbose log s).2)
    else
      match h2 : (cleanup status.changes.changes wd verbose log
          (emitAll (pendingLines verbose status.changes.changes)
            (get_status wd verbose log s).2)).1 with
      | .error e =>
        (.error e,
          (cleanup status.changes.changes wd verbose log
            (emitAll (pendingLines verbose status.changes.changes)
              (get_status wd verbose log s).2)).2)
      | .ok _ =>
        ensureLoop wd verbose log
          (cleanup status.changes.changes wd verbose log
            (emitAll (pendingLines verbose status.changes.changes)
              (get_status wd verbose log s).2)).2
termination_by s.env.length
decreasing_by
  have hrun : ∀ (inv : Invocation) (t : St),
      ((runCmd inv t).2).env.length ≤ t.env.length := by
    intro inv t
    cases h : t.env with
    | nil => simp [runCmd, h]
    | cons a as => simp [runCmd, h]
  have hundo : ∀ (c : Change) (t : St),
      ((undo c wd verbose log t).2).env.length ≤ t.env.length := by
    intro c t
    unfold undo
    cases hp : (runCmd (undoInv c.path wd)
        (emitAll (if verbose then ["* Undo change: " ++ c.toString] else []) t)).1 with
    | fail =>
      simp only [hp]
      calc ((runCmd (undoInv c.path wd) _).2).env.length
          ≤ (emitAll (if verbose then ["* Undo change: " ++ c.toString] else []) t).env.length :=
            hrun _ _
        _ = t.env.length := rfl
    | ok out =>
      simp only [hp]
      calc ((emitAll (logLines log out) (runCmd (undoInv c.path wd) _).2).env).length
          = ((runCmd (undoInv c.path wd) _).2).env.length := rfl
        _ ≤ (emitAll (if verbose then ["* Undo change: " ++ c.toString] else []) t).env.length :=
            hrun _ _
        _ = t.env.length := rfl
  have hloop : ∀ (cs : List Change) (t : St),
      ((cleanupLoop cs wd verbose log t).2).env.length ≤ t.env.length := by
    intro cs
    induction cs with
    | nil => intro t; simp [cleanupLoop]
    | cons c rest ih =>
      intro t
      unfold cleanupLoop
      cases hp : (undo c wd verbose log t).1 with
      | error e =>
        simp only [hp]
        exact hundo c t
      | ok u =>
        simp only [hp]
        exact le_trans (ih _) (hundo c t)
  have h1' : (get_status wd verbose log s).1 = .ok status := h1
  have hgs : ((get_status wd verbose log s).2).env.length < s.env.length := by
    unfold get_status at h1' ⊢
    cases henv : s.env with
    | nil =>
      exfalso
      simp [runCmd, emitAll, henv] at h1'
    | cons r rest =>
      cases r with
      | fail =>
        exfalso
        simp [runCmd, emitAll, henv] at h1'
      | ok out =>
        cases hfs : from_str (from_utf8_lossy out.stdout) with
        | error e =>
          exfalso
          simp [runCmd, emitAll, henv, hfs] at h1'
        | ok st =>
          simp [runCmd, emitAll, henv, hfs]
  have hcleanup : ∀ (cs : List Change) (t : St),
      ((cleanup cs wd verbose log t).2).env.length ≤ t.env.length := by
    intro cs t
    exact hloop cs (emitAll (if verbose then ["* Undo changes"] else []) t)
  exact lt_of_le_of_lt
    (hcleanup status.changes.changes
      (emitAll (pendingLines verbose status.changes.changes)
        (get_status wd verbose log s).2))
    hgs

/-- `ensure_clean`: announce when verbose, then run the convergence loop. -/
def ensure_clean (wd : String) (verbose log : Bool) (s : St) :
    Except Err Unit × St :=
  ensureLoop wd verbose log
    (emitAll (if verbose then ["* Ensure clean workspace"] else []) s)

/-- `update_latest`: announce when verbose, run
`cm update --last --override --forced`, log raw output when logging.  The
exit status and output are ignored; only a process that cannot run
aborts. -/
def update_latest (wd : String) (verbose log : Bool) (s : St) :
    Except Err Unit × St :=
  let s0 := emitAll (if verbose then ["* Update workspace"] else []) s
  let p := runCmd (updateInv wd) s0
  match p.1 with
  | .fail => (.error (.toolInvocation "Error during `cm update`"), p.2)
  | .ok out => (.ok (), emitAll (logLines log out) p.2)

/-- `update`: converge to clean, update to latest, converge again, with
every failure aborting the whole operation. -/
def update (wd : String) (verbose log : Bool) (s : St) :
    Except Err Unit × St :=
  let p := ensure_clean wd verbose log s
  match p.1 with
  | .error e => (.error e, p.2)
  | .ok _ =>
    let q := update_latest wd verbose log p.2
    match q.1 with
    | .error e => (.error e, q.2)
    | .ok _ => ensure_clean wd verbose log q.2

/-- A scripted iteration of the convergence loop: the status response the
tool will give, the change list that response decodes to (non-empty), and
the responses for the undo call issued for each change. -/
structure ScriptStep where
  out : Output
  cs : List Change
  undos : List Output

/-- Well-formedness of a scripted iteration: the status response runs to
completion and decodes to exactly the recorded non-empty change list, and
there is one undo response per change. -/
def ScriptStep.wf (st : ScriptStep) : Prop :=
  from_str (from_utf8_lossy st.out.stdout) = .ok ⟨⟨st.cs⟩⟩ ∧
    st.cs ≠ [] ∧ st.undos.length = st.cs.length

/-- Scripted responses consumed by one dirty iteration: the status
response followed by the undo responses. -/
def stepEnv (st : ScriptStep) : List ProcResult :=
  .ok st.out :: st.undos.map .ok

/-- Scripted responses consumed by a sequence of dirty iterations. -/
def scriptEnv (steps : List ScriptStep) : List ProcResult :=
  (steps.map stepEnv).flatten

/-- Invocations issued by one dirty iteration: a status query followed by
one undo per change, in order. -/
def stepCalls (wd : String) (st : ScriptStep) : List Invocation :=
  statusInv wd :: st.cs.map (fun c => undoInv c.path wd)

/-- Invocations issued by a sequence of dirty iterations. -/
def scriptCalls (wd : String) (steps : List ScriptStep) : List Invocation :=
  (steps.map (stepCalls wd)).flatten

/-- Whether an invocation is a status query. -/
def isStatusInv (i : Invocation) : Bool := i.args.head? == some "status"

/-- Whether an invocation is an undo call. -/
def isUndoInv (i : Invocation) : Bool := i.args.head? == some "undo"

/-- Whether an invocation is an update call. -/
def isUpdateInv (i : Invocation) : Bool := i.args.head? == some "update"

/-- ASCII bytes of a string, for building concrete captured outputs. -/
def strBytes (s : String) : List Nat := s.data.map Char.toNat

/-- Concrete status document reporting a single change. -/
def xmlDirty1 : String :=
  "<StatusOutput><Changes><Change><Path>/ws/a.txt</Path><PrintableSize>1 KB</PrintableSize></Change></Changes></StatusOutput>"

/-- Concrete status document reporting no changes. -/
def xmlClean : String := "<StatusOutput><Changes></Changes></StatusOutput>"

/-- Concrete status document whose one change entry has no path field. -/
def xmlNoPath : String :=
  "<StatusOutput><Changes><Change></Change></Changes></StatusOutput>"

/-- The single change reported by `xmlDirty1`. -/
def chA : Change := ⟨"/ws/a.txt", "1 KB"⟩

/-- A second concrete change, for order and duplication checks. -/
def chB : Change := ⟨"/ws/b.txt", "2 KB"⟩

/-- Captured output carrying `xmlDirty1` on stdout. -/
def outDirty1 : Output := ⟨strBytes xmlDirty1, [], 0⟩

/-- Captured output carrying `xmlClean` on stdout. -/
def outClean : Output := ⟨strBytes xmlClean, [], 0⟩

/-- Captured output carrying `xmlNoPath` on stdout. -/
def outNoPath : Output := ⟨strBytes xmlNoPath, [], 0⟩

/-- Captured output with empty stdout and stderr, as an undo or update
response. -/
def outBlank : Output := ⟨[], [], 0⟩

/-- Captured output that is not decodable status data. -/
def outGarbage : Output := ⟨strBytes "not xml", [], 0⟩

/-- A concrete scripted dirty iteration: one reported change, one undo
response. -/
def demoStep : ScriptStep := ⟨outDirty1, [chA], [outBlank]⟩

/-- A status query against a response that runs to completion consumes
that response, records the query, and returns whatever the captured
stdout deserializes to. -/
theorem get_status_ok_eq (wd : String) (v l : Bool) (out : Output)
    (so : StatusOutput) (rest : List ProcResult) (calls : List Invocation)
    (console : List String)
    (h : from_str (from_utf8_lossy out.stdout) = .ok so) :
    ∃ con, get_status wd v l ⟨.ok out :: rest, calls, console⟩ =
      (.ok so, ⟨rest, calls ++ [statusInv wd], con⟩) := by
  refine ⟨?_, ?_⟩
  · exact (console ++ (if v then ["* Get workspace status"] else [])) ++ logLines l out
  · simp [get_status, emitAll, runCmd, h]

/-- A status query against a response that cannot run fails with the
tool-invocation error, still recording the attempted query. -/
theorem get_status_fail_eq (wd : String) (v l : Bool)
    (rest : List ProcResult) (calls : List Invocation) (console : List String) :
    ∃ con, get_status wd v l ⟨.fail :: rest, calls, console⟩ =
      (.error (.toolInvocation "Error during `cm status`"),
        ⟨rest, calls ++ [statusInv wd], con⟩) := by
  refine ⟨console ++ (if v then ["* Get workspace status"] else []), ?_⟩
  simp [get_status, emitAll, runCmd]

/-- A status query whose captured stdout does not deserialize fails with
a decode error carrying the lossily converted text. -/
theorem get_status_decode_err_eq (wd : String) (v l : Bool) (out : Output)
    (m : String) (rest : List ProcResult) (calls : List Invocation)
    (console : List String)
    (h : from_str (from_utf8_lossy out.stdout) = .error m) :
    ∃ con, get_status wd v l ⟨.ok out :: rest, calls, console⟩ =
      (.error (.decode (from_utf8_lossy out.stdout)),
        ⟨rest, calls ++ [statusInv wd], con⟩) := by
  refine ⟨(console ++ (if v then ["* Get workspace status"] else [])) ++ logLines l out, ?_⟩
  simp [get_status, emitAll, runCmd, h]

/-- An undo call against a response that runs to completion succeeds,
whatever the captured output and exit code. -/
theorem undo_ok_eq (c : Change) (wd : String) (v l : Bool) (out : Output)
    (rest : List ProcResult) (calls : List Invocation) (console : List String) :
    ∃ con, undo c wd v l ⟨.ok out :: rest, calls, console⟩ =
      (.ok (), ⟨rest, calls ++ [undoInv c.path wd], con⟩) := by
  refine ⟨(console ++ (if v then ["* Undo change: " ++ c.toString] else [])) ++
    logLines l out, ?_⟩
  simp [undo, emitAll, runCmd]

/-- An undo call against a response that cannot run fails with the
tool-invocation error, still recording the attempted call. -/
theorem undo_fail_eq (c : Change) (wd : String) (v l : Bool)
    (rest : List ProcResult) (calls : List Invocation) (console : List String) :
    ∃ con, undo c wd v l ⟨.fail :: rest, calls, console⟩ =
      (.error (.toolInvocation "Error during `cm undo`"),
        ⟨rest, calls ++ [undoInv c.path wd], con⟩) := by
  refine ⟨console ++ (if v then ["* Undo change: " ++ c.toString] else []), ?_⟩
  simp [undo, emitAll, runCmd]

/-- The undo loop over a change list, when every scripted undo response
runs to completion, undoes each change once, in list order. -/
theorem cleanupLoop_ok_eq (wd : String) (v l : Bool) :
    ∀ (cs : List Change) (outs : List Output), outs.length = cs.length →
    ∀ (rest : List ProcResult) (calls : List Invocation) (console : List String),
    ∃ con, cleanupLoop cs wd v l ⟨outs.map .ok ++ rest, calls, console⟩ =
      (.ok (), ⟨rest, calls ++ cs.map (fun c => undoInv c.path wd), con⟩) := by
  intro cs
  induction cs with
  | nil =>
    intro outs hlen rest calls console
    cases outs with
    | nil => exact ⟨console, by simp [cleanupLoop]⟩
    | cons o os => simp at hlen
  | cons c cs ih =>
    intro outs hlen rest calls console
    cases outs with
    | nil => simp at hlen
    | cons o os =>
      obtain ⟨con1, h1⟩ := undo_ok_eq c wd v l o (os.map .ok ++ rest) calls console
      obtain ⟨con2, h2⟩ := ih os (by simpa using hlen) rest (calls ++ [undoInv c.path wd]) con1
      refine ⟨con2, ?_⟩
      simp only [cleanupLoop, List.map_cons, List.cons_append, h1, h2]
      simp

/-- The undo loop aborts at the first undo response that cannot run: the
changes before it are undone, the failing call is recorded, and nothing
after it is consumed or invoked. -/
theorem cleanupLoop_fail_eq (wd : String) (v l : Bool) :
    ∀ (cs : List Change) (outs : List Output), outs.length < cs.length →
    ∀ (rest : List ProcResult) (calls : List Invocation) (console : List String),
    ∃ con, cleanupLoop cs wd v l ⟨outs.map .ok ++ .fail :: rest, calls, console⟩ =
      (.error (.toolInvocation "Error during `cm undo`"),
        ⟨rest, calls ++ (cs.take (outs.length + 1)).map (fun c => undoInv c.path wd), con⟩) := by
  intro cs
  induction cs with
  | nil =>
    intro outs hlen
    simp at hlen
  | cons c cs ih =>
    intro outs hlen rest calls console
    cases outs with
    | nil =>
      obtain ⟨con1, h1⟩ := undo_fail_eq c wd v l rest calls console
      refine ⟨con1, ?_⟩
      simp only [cleanupLoop, List.map_nil, List.nil_append, h1]
      simp
    | cons o os =>
      obtain ⟨con1, h1⟩ := undo_ok_eq c wd v l o (os.map .ok ++ .fail :: rest) calls console
      obtain ⟨con2, h2⟩ := ih os (by simpa using hlen) rest (calls ++ [undoInv c.path wd]) con1
      refine ⟨con2, ?_⟩
      simp only [cleanupLoop, List.map_cons, List.cons_append, h1, h2]
      simp [List.take_cons]

/-- Step equation: a failing status query aborts the convergence loop at
once with that error. -/
theorem ensureLoop_step_err (wd : String) (v l : Bool) (s s1 : St) (e : Err)
    (h : get_status wd v l s = (.error e, s1)) :
    ensureLoop wd v l s = (.error e, s1) := by
  have hg1 : (get_status wd v l s).1 = Except.error e := by rw [h]
  have hg2 : (get_status wd v l s).2 = s1 := by rw [h]
  unfold ensureLoop
  split
  · rename_i e' heq
    rw [hg1] at heq
    injection heq with he
    subst he
    rw [hg2]
  · rename_i so' heq
    rw [hg1] at heq
    simp at heq

/-- Step equation: a status query reporting no changes ends the
convergence loop successfully. -/
theorem ensureLoop_step_clean (wd : String) (v l : Bool) (s s1 : St)
    (so : StatusOutput) (h : get_status wd v l s = (.ok so, s1))
    (hemp : so.changes.changes = []) :
    ensureLoop wd v l s = (.ok (), s1) := by
  have hg1 : (get_status wd v l s).1 = Except.ok so := by rw [h]
  have hg2 : (get_status wd v l s).2 = s1 := by rw [h]
  unfold ensureLoop
  split
  · rename_i e' heq
    rw [hg1] at heq
    simp at heq
  · rename_i so' heq
    rw [hg1] at heq
    injection heq with he
    subst he
    rw [hg2]
    simp [hemp]

/-- Step equation: a status query reporting changes whose cleanup
succeeds makes the convergence loop repeat from the post-cleanup state. -/
theorem ensureLoop_step_dirty (wd : String) (v l : Bool) (s s1 s3 : St)
    (so : StatusOutput) (u : Unit) (h : get_status wd v l s = (.ok so, s1))
    (hne : so.changes.changes ≠ [])
    (hc : cleanup so.changes.changes wd v l
      (emitAll (pendingLines v so.changes.changes) s1) = (.ok u, s3)) :
    ensureLoop wd v l s = ensureLoop wd v l s3 := by
  have hg1 : (get_status wd v l s).1 = Except.ok so := by rw [h]
  have hg2 : (get_status wd v l s).2 = s1 := by rw [h]
  have hc1 : (cleanup so.changes.changes wd v l
      (emitAll (pendingLines v so.changes.changes) s1)).1 = Except.ok u := by rw [hc]
  have hc2 : (cleanup so.changes.changes wd v l
      (emitAll (pendingLines v so.changes.changes) s1)).2 = s3 := by rw [hc]
  have hcond : ¬(so.changes.changes.isEmpty = true) := by simpa using hne
  conv_lhs => unfold ensureLoop
  split
  · rename_i e' heq
    rw [hg1] at heq
    simp at heq
  · rename_i so' heq
    rw [hg1] at heq
    injection heq with he
    subst he
    rw [hg2, if_neg hcond]
    split
    · rename_i e' heq2
      rw [hc1] at heq2
      simp at heq2
    · rename_i u' heq2
      rw [hc2]

/-- Step equation: a status query reporting changes whose cleanup fails
aborts the convergence loop with the cleanup error. -/
theorem ensureLoop_step_dirty_err (wd : String) (v l : Bool) (s s1 s3 : St)
    (so : StatusOutput) (e : Err) (h : get_status wd v l s = (.ok so, s1))
    (hne : so.changes.changes ≠ [])
    (hc : cleanup so.changes.changes wd v l
      (emitAll (pendingLines v so.changes.changes) s1) = (.error e, s3)) :
    ensureLoop wd v l s = (.error e, s3) := by
  have hg1 : (get_status wd v l s).1 = Except.ok so := by rw [h]
  have hg2 : (get_status wd v l s).2 = s1 := by rw [h]
  have hc1 : (cleanup so.changes.changes wd v l
      (emitAll (pendingLines v so.changes.changes) s1)).1 = Except.error e := by rw [hc]
  have hc2 : (cleanup so.changes.changes wd v l
      (emitAll (pendingLines v so.changes.changes) s1)).2 = s3 := by rw [hc]
  have hcond : ¬(so.changes.changes.isEmpty = true) := by simpa using hne
  unfold ensureLoop
  split
  · rename_i e' heq
    rw [hg1] at heq
    simp at heq
  · rename_i so' heq
    rw [hg1] at heq
    injection heq with he
    subst he
    rw [hg2, if_neg hcond]
    split
    · rename_i e' heq2
      rw [hc1] at heq2
      injection heq2 with he2
      subst he2
      rw [hc2]
    · rename_i u' heq2
      rw [hc1] at heq2
      simp at heq2

/-- `cleanup` behaves as its undo loop: the verbose announcement touches
only the console. -/
theorem cleanup_ok_eq (wd : String) (v l : Bool) (cs : List Change)
    (outs : List Output) (hlen : outs.length = cs.length)
    (rest : List ProcResult) (calls : List Invocation) (console : List String)
    (lines : List String) :
    ∃ con, cleanup cs wd v l (emitAll lines ⟨outs.map .ok ++ rest, calls, console⟩) =
      (.ok (), ⟨rest, calls ++ cs.map (fun c => undoInv c.path wd), con⟩) := by
  obtain ⟨con, h⟩ := cleanupLoop_ok_eq wd v l cs outs hlen rest calls
    ((console ++ lines) ++ (if v then ["* Undo changes"] else []))
  exact ⟨con, h⟩

/-- `cleanup` aborts at the first failing undo response, like its loop. -/
theorem cleanup_fail_eq (wd : String) (v l : Bool) (cs : List Change)
    (outs : List Output) (hlen : outs.length < cs.length)
    (rest : List ProcResult) (calls : List Invocation) (console : List String)
    (lines : List String) :
    ∃ con, cleanup cs wd v l
        (emitAll lines ⟨outs.map .ok ++ .fail :: rest, calls, console⟩) =
      (.error (.toolInvocation "Error during `cm undo`"),
        ⟨rest, calls ++ (cs.take (outs.length + 1)).map (fun c => undoInv c.path wd), con⟩) := by
  obtain ⟨con, h⟩ := cleanupLoop_fail_eq wd v l cs outs hlen rest calls
    ((console ++ lines) ++ (if v then ["* Undo changes"] else []))
  exact ⟨con, h⟩

/-- A scripted run of the convergence loop: `K` dirty status responses,
each followed by its undo responses, then a clean status response.  The
loop succeeds, consumes exactly the scripted responses, and issues, in
order, one status query and one undo per change for every dirty
iteration, then the final status query. -/
theorem ensureLoop_script_run (wd : String) (v l : Bool) :
    ∀ (steps : List ScriptStep), (∀ st ∈ steps, st.wf) →
    ∀ (fin : Output), from_str (from_utf8_lossy fin.stdout) = .ok ⟨⟨[]⟩⟩ →
    ∀ (rest : List ProcResult) (calls : List Invocation) (console : List String),
    ∃ con, ensureLoop wd v l ⟨scriptEnv steps ++ .ok fin :: rest, calls, console⟩ =
      (.ok (), ⟨rest, (calls ++ scriptCalls wd steps) ++ [statusInv wd], con⟩) := by
  intro steps
  induction steps with
  | nil =>
    intro _ fin hfin rest calls console
    obtain ⟨con, hgs⟩ := get_status_ok_eq wd v l fin ⟨⟨[]⟩⟩ rest calls console hfin
    refine ⟨con, ?_⟩
    have hstep := ensureLoop_step_clean wd v l ⟨.ok fin :: rest, calls, console⟩
      ⟨rest, calls ++ [statusInv wd], con⟩ ⟨⟨[]⟩⟩ hgs rfl
    simpa [scriptEnv, scriptCalls] using hstep
  | cons st steps ih =>
    intro hwf fin hfin rest calls console
    obtain ⟨hdec, hne, hlen⟩ := hwf st (List.mem_cons_self st steps)
    have hst_eq : (⟨scriptEnv (st :: steps) ++ .ok fin :: rest, calls, console⟩ : St) =
        ⟨.ok st.out :: (st.undos.map .ok ++ (scriptEnv steps ++ .ok fin :: rest)),
          calls, console⟩ := by
      simp [scriptEnv, stepEnv]
    rw [hst_eq]
    obtain ⟨con1, hgs⟩ := get_status_ok_eq wd v l st.out ⟨⟨st.cs⟩⟩
      (st.undos.map .ok ++ (scriptEnv steps ++ .ok fin :: rest)) calls console hdec
    obtain ⟨con2, hcl⟩ := cleanup_ok_eq wd v l st.cs st.undos hlen
      (scriptEnv steps ++ .ok fin :: rest) (calls ++ [statusInv wd])
      con1 (pendingLines v st.cs)
    have hstep := ensureLoop_step_dirty wd v l
      ⟨.ok st.out :: (st.undos.map .ok ++ (scriptEnv steps ++ .ok fin :: rest)),
        calls, console⟩
      ⟨st.undos.map .ok ++ (scriptEnv steps ++ .ok fin :: rest),
        calls ++ [statusInv wd], con1⟩
      ⟨scriptEnv steps ++ .ok fin :: rest,
        (calls ++ [statusInv wd]) ++ st.cs.map (fun c => undoInv c.path wd), con2⟩
      ⟨⟨st.cs⟩⟩ () hgs hne hcl
    obtain ⟨con3, hrec⟩ := ih (fun st' h' => hwf st' (List.mem_cons_of_mem st h'))
      fin hfin rest
      ((calls ++ [statusInv wd]) ++ st.cs.map (fun c => undoInv c.path wd)) con2
    refine ⟨con3, ?_⟩
    rw [hstep, hrec]
    simp [scriptCalls, stepCalls]

/-- A scripted run of the convergence loop whose next status query cannot
run: the loop aborts with the tool-invocation error after the scripted
iterations, consuming nothing beyond the failed query. -/
theorem ensureLoop_script_statusFail (wd : String) (v l : Bool) :
    ∀ (steps : List ScriptStep), (∀ st ∈ steps, st.wf) →
    ∀ (rest : List ProcResult) (calls : List Invocation) (console : List String),
    ∃ con, ensureLoop wd v l ⟨scriptEnv steps ++ .fail :: rest, calls, console⟩ =
      (.error (.toolInvocation "Error during `cm status`"),
        ⟨rest, (calls ++ scriptCalls wd steps) ++ [statusInv wd], con⟩) := by
  intro steps
  induction steps with
  | nil =>
    intro _ rest calls console
    obtain ⟨con, hgs⟩ := get_status_fail_eq wd v l rest calls console
    refine ⟨con, ?_⟩
    have hstep := ensureLoop_step_err wd v l ⟨.fail :: rest, calls, console⟩
      ⟨rest, calls ++ [statusInv wd], con⟩ (.toolInvocation "Error during `cm status`") hgs
    simpa [scriptEnv, scriptCalls] using hstep
  | cons st steps ih =>
    intro hwf rest calls console
    obtain ⟨hdec, hne, hlen⟩ := hwf st (List.mem_cons_self st steps)
    have hst_eq : (⟨scriptEnv (st :: steps) ++ .fail :: rest, calls, console⟩ : St) =
        ⟨.ok st.out :: (st.undos.map .ok ++ (scriptEnv steps ++ .fail :: rest)),
          calls, console⟩ := by
      simp [scriptEnv, stepEnv]
    rw [hst_eq]
    obtain ⟨con1, hgs⟩ := get_status_ok_eq wd v l st.out ⟨⟨st.cs⟩⟩
      (st.undos.map .ok ++ (scriptEnv steps ++ .fail :: rest)) calls console hdec
    obtain ⟨con2, hcl⟩ := cleanup_ok_eq wd v l st.cs st.undos hlen
      (scriptEnv steps ++ .fail :: rest) (calls ++ [statusInv wd])
      con1 (pendingLines v st.cs)
    have hstep := ensureLoop_step_dirty wd v l
      ⟨.ok st.out :: (st.undos.map .ok ++ (scriptEnv steps ++ .fail :: rest)),
        calls, console⟩
      ⟨st.undos.map .ok ++ (scriptEnv steps ++ .fail :: rest),
        calls ++ [statusInv wd], con1⟩
      ⟨scriptEnv steps ++ .fail :: rest,
        (calls ++ [statusInv wd]) ++ st.cs.map (fun c => undoInv c.path wd), con2⟩
      ⟨⟨st.cs⟩⟩ () hgs hne hcl
    obtain ⟨con3, hrec⟩ := ih (fun st' h' => hwf st' (List.mem_cons_of_mem st h'))
      rest ((calls ++ [statusInv wd]) ++ st.cs.map (fun c => undoInv c.path wd)) con2
    refine ⟨con3, ?_⟩
    rw [hstep, hrec]
    simp [scriptCalls, stepCalls]

/-- A scripted run of the convergence loop where, after the scripted
iterations, the next status response reports changes but an undo response
cannot run: the loop undoes the changes before the failing one, records
the failing undo call, and aborts, consuming nothing further. -/
theorem ensureLoop_script_undoFail (wd : String) (v l : Bool) :
    ∀ (steps : List ScriptStep), (∀ st ∈ steps, st.wf) →
    ∀ (dOut : Output) (cs : List Change) (okUndos : List Output),
    from_str (from_utf8_lossy dOut.stdout) = .ok ⟨⟨cs⟩⟩ →
    okUndos.length < cs.length →
    ∀ (rest : List ProcResult) (calls : List Invocation) (console : List String),
    ∃ con, ensureLoop wd v l
        ⟨scriptEnv steps ++ .ok dOut :: (okUndos.map .ok ++ .fail :: rest),
          calls, console⟩ =
      (.error (.toolInvocation "Error during `cm undo`"),
        ⟨rest, ((calls ++ scriptCalls wd steps) ++ [statusInv wd]) ++
          (cs.take (okUndos.length + 1)).map (fun c => undoInv c.path wd), con⟩) := by
  intro steps
  induction steps with
  | nil =>
    intro _ dOut cs okUndos hdec hlt rest calls console
    have hne : cs ≠ [] := by
      intro hnil
      rw [hnil] at hlt
      simp at hlt
    obtain ⟨con1, hgs⟩ := get_status_ok_eq wd v l dOut ⟨⟨cs⟩⟩
      (okUndos.map .ok ++ .fail :: rest) calls console hdec
    obtain ⟨con2, hcl⟩ := cleanup_fail_eq wd v l cs okUndos hlt rest
      (calls ++ [statusInv wd]) con1 (pendingLines v cs)
    have hstep := ensureLoop_step_dirty_err wd v l
      ⟨.ok dOut :: (okUndos.map .ok ++ .fail :: rest), calls, console⟩
      ⟨okUndos.map .ok ++ .fail :: rest, calls ++ [statusInv wd], con1⟩
      ⟨rest, (calls ++ [statusInv wd]) ++
        (cs.take (okUndos.length + 1)).map (fun c => undoInv c.path wd), con2⟩
      ⟨⟨cs⟩⟩ (.toolInvocation "Error during `cm undo`") hgs hne hcl
    refine ⟨con2, ?_⟩
    simpa [scriptEnv, scriptCalls] using hstep
  | cons st steps ih =>
    intro hwf dOut cs okUndos hdec hlt rest calls console
    obtain ⟨hdec0, hne0, hlen0⟩ := hwf st (List.mem_cons_self st steps)
    have hst_eq : (⟨scriptEnv (st :: steps) ++
          .ok dOut :: (okUndos.map .ok ++ .fail :: rest), calls, console⟩ : St) =
        ⟨.ok st.out :: (st.undos.map .ok ++
          (scriptEnv steps ++ .ok dOut :: (okUndos.map .ok ++ .fail :: rest))),
          calls, console⟩ := by
      simp [scriptEnv, stepEnv]
    rw [hst_eq]
    obtain ⟨con1, hgs⟩ := get_status_ok_eq wd v l st.out ⟨⟨st.cs⟩⟩
      (st.undos.map .ok ++
        (scriptEnv steps ++ .ok dOut :: (okUndos.map .ok ++ .fail :: rest)))
      calls console hdec0
    obtain ⟨con2, hcl⟩ := cleanup_ok_eq wd v l st.cs st.undos hlen0
      (scriptEnv steps ++ .ok dOut :: (okUndos.map .ok ++ .fail :: rest))
      (calls ++ [statusInv wd]) con1 (pendingLines v st.cs)
    have hstep := ensureLoop_step_dirty wd v l
      ⟨.ok st.out :: (st.undos.map .ok ++
        (scriptEnv steps ++ .ok dOut :: (okUndos.map .ok ++ .fail :: rest))),
        calls, console⟩
      ⟨st.undos.map .ok ++
        (scriptEnv steps ++ .ok dOut :: (okUndos.map .ok ++ .fail :: rest)),
        calls ++ [statusInv wd], con1⟩
      ⟨scriptEnv steps ++ .ok dOut :: (okUndos.map .ok ++ .fail :: rest),
        (calls ++ [statusInv wd]) ++ st.cs.map (fun c => undoInv c.path wd), con2⟩
      ⟨⟨st.cs⟩⟩ () hgs hne0 hcl
    obtain ⟨con3, hrec⟩ := ih (fun st' h' => hwf st' (List.mem_cons_of_mem st h'))
      dOut cs okUndos hdec hlt rest
      ((calls ++ [statusInv wd]) ++ st.cs.map (fun c => undoInv c.path wd)) con2
    refine ⟨con3, ?_⟩
    rw [hstep, hrec]
    simp [scriptCalls, stepCalls]

/-- An update call against a response that runs to completion succeeds,
whatever the captured output and exit code. -/
theorem update_latest_ok_eq (wd : String) (v l : Bool) (out : Output)
    (rest : List ProcResult) (calls : List Invocation) (console : List String) :
    ∃ con, update_latest wd v l ⟨.ok out :: rest, calls, console⟩ =
      (.ok (), ⟨rest, calls ++ [updateInv wd], con⟩) := by
  refine ⟨(console ++ (if v then ["* Update workspace"] else [])) ++ logLines l out, ?_⟩
  simp [update_latest, emitAll, runCmd]

/-- The convergence loop entry point behaves as the loop itself on a
scripted run: the verbose announcement touches only the console. -/
theorem ensure_clean_script_run (wd : String) (v l : Bool)
    (steps : List ScriptStep) (hwf : ∀ st ∈ steps, st.wf)
    (fin : Output) (hfin : from_str (from_utf8_lossy fin.stdout) = .ok ⟨⟨[]⟩⟩)
    (rest : List ProcResult) (calls : List Invocation) (console : List String) :
    ∃ con, ensure_clean wd v l ⟨scriptEnv steps ++ .ok fin :: rest, calls, console⟩ =
      (.ok (), ⟨rest, (calls ++ scriptCalls wd steps) ++ [statusInv wd], con⟩) := by
  obtain ⟨con, h⟩ := ensureLoop_script_run wd v l steps hwf fin hfin rest calls
    (console ++ (if v then ["* Ensure clean workspace"] else []))
  exact ⟨con, h⟩

/-- Undo invocations are not status queries. -/
theorem countP_status_of_undo (wd : String) (cs : List Change) :
    (cs.map (fun c => undoInv c.path wd)).countP isStatusInv = 0 := by
  induction cs with
  | nil => simp
  | cons c cs ih => simp [isStatusInv, undoInv, ih]

/-- Every undo invocation counts as an undo call. -/
theorem countP_undo_of_undo (wd : String) (cs : List Change) :
    (cs.map (fun c => undoInv c.path wd)).countP isUndoInv = cs.length := by
  induction cs with
  | nil => simp
  | cons c cs ih => simp [isUndoInv, undoInv, ih]

/-- Undo invocations are not update calls. -/
theorem countP_update_of_undo (wd : String) (cs : List Change) :
    (cs.map (fun c => undoInv c.path wd)).countP isUpdateInv = 0 := by
  induction cs with
  | nil => simp
  | cons c cs ih => simp [isUpdateInv, undoInv, ih]

/-- A scripted run's invocations contain one status query per dirty
iteration. -/
theorem scriptCalls_count_status (wd : String) (steps : List ScriptStep) :
    (scriptCalls wd steps).countP isStatusInv = steps.length := by
  induction steps with
  | nil => simp [scriptCalls]
  | cons st steps ih =>
    have h1 : scriptCalls wd (st :: steps) = stepCalls wd st ++ scriptCalls wd steps := by
      simp [scriptCalls]
    have h2 : (stepCalls wd st).countP isStatusInv = 1 := by
      simp only [stepCalls, List.countP_cons, countP_status_of_undo]
      simp [isStatusInv, statusInv]
    rw [h1, List.countP_append, h2, ih]
    simp [List.length_cons, List.map_cons, List.sum_cons]
    try omega

/-- A scripted run's invocations contain one undo call per change of each
dirty iteration. -/
theorem scriptCalls_count_undo (wd : String) (steps : List ScriptStep) :
    (scriptCalls wd steps).countP isUndoInv =
      (steps.map (fun st => st.cs.length)).sum := by
  induction steps with
  | nil => simp [scriptCalls]
  | cons st steps ih =>
    have h1 : scriptCalls wd (st :: steps) = stepCalls wd st ++ scriptCalls wd steps := by
      simp [scriptCalls]
    have h2 : (stepCalls wd st).countP isUndoInv = st.cs.length := by
      simp only [stepCalls, List.countP_cons, countP_undo_of_undo]
      simp [isUndoInv, statusInv]
    rw [h1, List.countP_append, h2, ih]
    simp [List.length_cons, List.map_cons, List.sum_cons]
    try omega

/-- The concrete clean status output decodes to the empty status. -/
theorem outClean_decodes :
    from_str (from_utf8_lossy outClean.stdout) = .ok ⟨⟨[]⟩⟩ := rfl

/-- The concrete dirty status output decodes to the one-change status. -/
theorem outDirty1_decodes :
    from_str (from_utf8_lossy outDirty1.stdout) = .ok ⟨⟨[chA]⟩⟩ := rfl

/-- The concrete scripted iteration is well formed. -/
theorem demoStep_wf : ∀ st ∈ [demoStep], st.wf := by
  intro st hst
  simp only [List.mem_singleton] at hst
  subst hst
  refine ⟨outDirty1_decodes, ?_, rfl⟩
  simp [demoStep]

/-- Claim C1 (amended): for a scripted run in which the status query
reports a non-empty change list on each of the first `K` calls and an
empty list on call `K+1`, `ensure_clean` terminates successfully after
exactly `K+1` status queries — the `K` queries that report changes plus
the final query that reports none — and issues one undo call per
reported change, i.e. as many undo calls as the sum of the change counts
reported across all queries. -/
theorem ensure_clean_convergence (wd : String) (v l : Bool)
    (steps : List ScriptStep) (hwf : ∀ st ∈ steps, st.wf)
    (fin : Output) (hfin : from_str (from_utf8_lossy fin.stdout) = .ok ⟨⟨[]⟩⟩) :
    (ensure_clean wd v l (St.init (scriptEnv steps ++ [.ok fin]))).1 = .ok () ∧
    ((ensure_clean wd v l (St.init (scriptEnv steps ++ [.ok fin]))).2).calls.countP
      isStatusInv = steps.length + 1 ∧
    ((ensure_clean wd v l (St.init (scriptEnv steps ++ [.ok fin]))).2).calls.countP
      isUndoInv = (steps.map (fun st => st.cs.length)).sum := by
  obtain ⟨con, h⟩ := ensure_clean_script_run wd v l steps hwf fin hfin [] [] []
  rw [show St.init (scriptEnv steps ++ [.ok fin]) =
    (⟨scriptEnv steps ++ .ok fin :: [], [], []⟩ : St) from rfl, h]
  refine ⟨rfl, ?_, ?_⟩
  · simp [List.countP_append, List.countP_cons, scriptCalls_count_status,
      isStatusInv, statusInv]
  · simp [List.countP_append, List.countP_cons, scriptCalls_count_undo,
      isUndoInv, statusInv]

/-- Witness for C1: one dirty query reporting one change, one undo
response, then a clean query — two status queries and one undo call. -/
theorem ensure_clean_convergence_witness :
    (∀ st ∈ [demoStep], st.wf) ∧
    from_str (from_utf8_lossy outClean.stdout) = .ok ⟨⟨[]⟩⟩ ∧
    ((ensure_clean "w" false false
        (St.init (scriptEnv [demoStep] ++ [.ok outClean]))).1 = .ok () ∧
     ((ensure_clean "w" false false
        (St.init (scriptEnv [demoStep] ++ [.ok outClean]))).2).calls.countP
        isStatusInv = [demoStep].length + 1 ∧
     ((ensure_clean "w" false false
        (St.init (scriptEnv [demoStep] ++ [.ok outClean]))).2).calls.countP
        isUndoInv = ([demoStep].map (fun st => st.cs.length)).sum) :=
  ⟨demoStep_wf, outClean_decodes,
    ensure_clean_convergence "w" false false [demoStep] demoStep_wf
      outClean outClean_decodes⟩

/-- Counterexample to C1 as stated: with `K = 1` — one status query
reporting one change, then a clean query — `ensure_clean` performs two
status queries, not `K = 1`: the final clean query is also a query. -/
theorem ensure_clean_convergence_counterexample :
    ((ensure_clean "w" false false
        (St.init (scriptEnv [demoStep] ++ [.ok outClean]))).2).calls.countP
      isStatusInv = 2 ∧
    ((ensure_clean "w" false false
        (St.init (scriptEnv [demoStep] ++ [.ok outClean]))).2).calls.countP
      isStatusInv ≠ 1 := by
  obtain ⟨con, h⟩ := ensure_clean_script_run "w" false false [demoStep]
    demoStep_wf outClean outClean_decodes [] [] []
  rw [show St.init (scriptEnv [demoStep] ++ [.ok outClean]) =
    (⟨scriptEnv [demoStep] ++ .ok outClean :: [], [], []⟩ : St) from rfl, h]
  refine ⟨?_, ?_⟩
  · rfl
  · show List.countP isStatusInv
      (([] ++ scriptCalls "w" [demoStep]) ++ [statusInv "w"]) ≠ 1
    decide

/-- Claim C3: on a workspace whose first status query reports zero
changes, `ensure_clean` performs exactly one status query and zero undo
calls, consumes exactly that one response, and terminates successfully. -/
theorem ensure_clean_idempotent (wd : String) (v l : Bool) (out : Output)
    (rest : List ProcResult)
    (hfin : from_str (from_utf8_lossy out.stdout) = .ok ⟨⟨[]⟩⟩) :
    (ensure_clean wd v l (St.init (.ok out :: rest))).1 = .ok () ∧
    ((ensure_clean wd v l (St.init (.ok out :: rest))).2).calls = [statusInv wd] ∧
    ((ensure_clean wd v l (St.init (.ok out :: rest))).2).calls.countP
      isStatusInv = 1 ∧
    ((ensure_clean wd v l (St.init (.ok out :: rest))).2).calls.countP
      isUndoInv = 0 ∧
    ((ensure_clean wd v l (St.init (.ok out :: rest))).2).env = rest := by
  obtain ⟨con, hgs⟩ := get_status_ok_eq wd v l out ⟨⟨[]⟩⟩ rest []
    (if v then ["* Ensure clean workspace"] else []) hfin
  have hstep : ensure_clean wd v l (St.init (.ok out :: rest)) =
      (.ok (), ⟨rest, [] ++ [statusInv wd], con⟩) :=
    ensureLoop_step_clean wd v l
      ⟨.ok out :: rest, [], (if v then ["* Ensure clean workspace"] else [])⟩
      ⟨rest, [] ++ [statusInv wd], con⟩ ⟨⟨[]⟩⟩ hgs rfl
  rw [hstep]
  refine ⟨rfl, by simp, ?_, ?_, rfl⟩
  · simp [isStatusInv, statusInv]
  · simp [isUndoInv, statusInv]

/-- Witness for C3: a concrete clean status response. -/
theorem ensure_clean_idempotent_witness :
    from_str (from_utf8_lossy outClean.stdout) = .ok ⟨⟨[]⟩⟩ ∧
    ((ensure_clean "w" true true (St.init (.ok outClean :: []))).1 = .ok () ∧
     ((ensure_clean "w" true true (St.init (.ok outClean :: []))).2).calls =
       [statusInv "w"] ∧
     ((ensure_clean "w" true true (St.init (.ok outClean :: []))).2).calls.countP
       isStatusInv = 1 ∧
     ((ensure_clean "w" true true (St.init (.ok outClean :: []))).2).calls.countP
       isUndoInv = 0 ∧
     ((ensure_clean "w" true true (St.init (.ok outClean :: []))).2).env = []) :=
  ⟨outClean_decodes,
    ensure_clean_idempotent "w" true true outClean [] outClean_decodes⟩

/-- Claim C4: within one iteration of the convergence loop, `cleanup`
invokes undo exactly once per change entry of the decoded status, in the
exact order the entries appear, with no reordering and no deduplication:
the undo invocations issued are literally the entry-wise image of the
change list. -/
theorem cleanup_order (wd : String) (v l : Bool) (cs : List Change)
    (outs : List Output) (hlen : outs.length = cs.length)
    (rest : List ProcResult) (calls : List Invocation) (console : List String) :
    (cleanup cs wd v l ⟨outs.map .ok ++ rest, calls, console⟩).1 = .ok () ∧
    ((cleanup cs wd v l ⟨outs.map .ok ++ rest, calls, console⟩).2).calls =
      calls ++ cs.map (fun c => undoInv c.path wd) ∧
    ((cleanup cs wd v l ⟨outs.map .ok ++ rest, calls, console⟩).2).env = rest := by
  obtain ⟨con, h⟩ := cleanupLoop_ok_eq wd v l cs outs hlen rest calls
    (console ++ (if v then ["* Undo changes"] else []))
  have h' : cleanup cs wd v l ⟨outs.map .ok ++ rest, calls, console⟩ =
      (.ok (), ⟨rest, calls ++ cs.map (fun c => undoInv c.path wd), con⟩) := h
  rw [h']
  exact ⟨rfl, rfl, rfl⟩

/-- Witness for C4: three changes with a duplicated entry produce three
undo calls, in order, including the duplicate. -/
theorem cleanup_order_witness :
    ([outBlank, outBlank, outBlank] : List Output).length =
      ([chA, chB, chA] : List Change).length ∧
    ((cleanup [chA, chB, chA] "w" false false
        ⟨[outBlank, outBlank, outBlank].map .ok ++ [], [], []⟩).1 = .ok () ∧
     ((cleanup [chA, chB, chA] "w" false false
        ⟨[outBlank, outBlank, outBlank].map .ok ++ [], [], []⟩).2).calls =
       [] ++ [chA, chB, chA].map (fun c => undoInv c.path "w") ∧
     ((cleanup [chA, chB, chA] "w" false false
        ⟨[outBlank, outBlank, outBlank].map .ok ++ [], [], []⟩).2).env = []) :=
  ⟨rfl, cleanup_order "w" false false [chA, chB, chA]
    [outBlank, outBlank, outBlank] rfl [] [] []⟩

/-- Claim C2: `update` is exactly convergence loop, then one update
invocation, then convergence loop again.  For a scripted run that is
clean at query 1, reports `M` changes at query 2 (post-update), and is
clean at query 3, it issues, in order: a status query, an update call, a
status query, `M` undo calls (one per change, in order), and a final
status query — 3 status queries, 1 update call, `M` undo calls. -/
theorem update_composition (wd : String) (v l : Bool)
    (cleanOut1 updOut dirtyOut cleanOut2 : Output) (cs : List Change)
    (undoOuts : List Output) (rest : List ProcResult)
    (hq1 : from_str (from_utf8_lossy cleanOut1.stdout) = .ok ⟨⟨[]⟩⟩)
    (hq2 : from_str (from_utf8_lossy dirtyOut.stdout) = .ok ⟨⟨cs⟩⟩)
    (hne : cs ≠ [])
    (hlen : undoOuts.length = cs.length)
    (hq3 : from_str (from_utf8_lossy cleanOut2.stdout) = .ok ⟨⟨[]⟩⟩) :
    (update wd v l (St.init (.ok cleanOut1 :: .ok updOut :: .ok dirtyOut ::
        (undoOuts.map .ok ++ (.ok cleanOut2 :: rest))))).1 = .ok () ∧
    ((update wd v l (St.init (.ok cleanOut1 :: .ok updOut :: .ok dirtyOut ::
        (undoOuts.map .ok ++ (.ok cleanOut2 :: rest))))).2).calls =
      statusInv wd :: updateInv wd :: statusInv wd ::
        (cs.map (fun c => undoInv c.path wd) ++ [statusInv wd]) ∧
    ((update wd v l (St.init (.ok cleanOut1 :: .ok updOut :: .ok dirtyOut ::
        (undoOuts.map .ok ++ (.ok cleanOut2 :: rest))))).2).calls.countP
      isStatusInv = 3 ∧
    ((update wd v l (St.init (.ok cleanOut1 :: .ok updOut :: .ok dirtyOut ::
        (undoOuts.map .ok ++ (.ok cleanOut2 :: rest))))).2).calls.countP
      isUpdateInv = 1 ∧
    ((update wd v l (St.init (.ok cleanOut1 :: .ok updOut :: .ok dirtyOut ::
        (undoOuts.map .ok ++ (.ok cleanOut2 :: rest))))).2).calls.countP
      isUndoInv = cs.length ∧
    ((update wd v l (St.init (.ok cleanOut1 :: .ok updOut :: .ok dirtyOut ::
        (undoOuts.map .ok ++ (.ok cleanOut2 :: rest))))).2).env = rest := by
  obtain ⟨conA, hgsA⟩ := get_status_ok_eq wd v l cleanOut1 ⟨⟨[]⟩⟩
    (.ok updOut :: .ok dirtyOut :: (undoOuts.map .ok ++ (.ok cleanOut2 :: rest)))
    [] (if v then ["* Ensure clean workspace"] else []) hq1
  have hA : ensure_clean wd v l (St.init (.ok cleanOut1 :: .ok updOut ::
      .ok dirtyOut :: (undoOuts.map .ok ++ (.ok cleanOut2 :: rest)))) =
      (.ok (), ⟨.ok updOut :: .ok dirtyOut ::
        (undoOuts.map .ok ++ (.ok cleanOut2 :: rest)), [statusInv wd], conA⟩) :=
    ensureLoop_step_clean wd v l _ _ ⟨⟨[]⟩⟩ hgsA rfl
  obtain ⟨conB, hB0⟩ := update_latest_ok_eq wd v l updOut
    (.ok dirtyOut :: (undoOuts.map .ok ++ (.ok cleanOut2 :: rest)))
    [statusInv wd] conA
  have hB : update_latest wd v l ⟨.ok updOut :: .ok dirtyOut ::
      (undoOuts.map .ok ++ (.ok cleanOut2 :: rest)), [statusInv wd], conA⟩ =
      (.ok (), ⟨.ok dirtyOut :: (undoOuts.map .ok ++ (.ok cleanOut2 :: rest)),
        [statusInv wd, updateInv wd], conB⟩) := hB0
  obtain ⟨conC, hC0⟩ := ensure_clean_script_run wd v l [⟨dirtyOut, cs, undoOuts⟩]
    (by
      intro st hst
      simp only [List.mem_singleton] at hst
      subst hst
      exact ⟨hq2, hne, hlen⟩)
    cleanOut2 hq3 rest [statusInv wd, updateInv wd] conB
  have henv : (ProcResult.ok dirtyOut ::
      (undoOuts.map ProcResult.ok ++ (ProcResult.ok cleanOut2 :: rest))) =
      scriptEnv [⟨dirtyOut, cs, undoOuts⟩] ++ .ok cleanOut2 :: rest := by
    simp [scriptEnv, stepEnv]
  have hC : ensure_clean wd v l ⟨.ok dirtyOut ::
      (undoOuts.map .ok ++ (.ok cleanOut2 :: rest)),
      [statusInv wd, updateInv wd], conB⟩ =
      (.ok (), ⟨rest, statusInv wd :: updateInv wd :: statusInv wd ::
        (cs.map (fun c => undoInv c.path wd) ++ [statusInv wd]), conC⟩) := by
    rw [henv, hC0]
    simp [scriptCalls, stepCalls]
  have hfinal : update wd v l (St.init (.ok cleanOut1 :: .ok updOut ::
      .ok dirtyOut :: (undoOuts.map .ok ++ (.ok cleanOut2 :: rest)))) =
      (.ok (), ⟨rest, statusInv wd :: updateInv wd :: statusInv wd ::
        (cs.map (fun c => undoInv c.path wd) ++ [statusInv wd]), conC⟩) := by
    simp only [update, hA, hB, hC]
  rw [hfinal]
  refine ⟨rfl, rfl, ?_, ?_, ?_, rfl⟩
  · simp only [List.countP_cons, List.countP_append, countP_status_of_undo]
    simp [isStatusInv, statusInv, updateInv]
  · simp only [List.countP_cons, List.countP_append, countP_update_of_undo]
    simp [isUpdateInv, statusInv, updateInv]
  · simp only [List.countP_cons, List.countP_append, countP_undo_of_undo]
    simp [isUndoInv, statusInv, updateInv]

/-- Witness for C2: clean, update, one change, one undo, clean. -/
theorem update_composition_witness :
    from_str (from_utf8_lossy outClean.stdout) = .ok ⟨⟨[]⟩⟩ ∧
    from_str (from_utf8_lossy outDirty1.stdout) = .ok ⟨⟨[chA]⟩⟩ ∧
    ([chA] : List Change) ≠ [] ∧
    ([outBlank] : List Output).length = ([chA] : List Change).length ∧
    ((update "w" false false (St.init (.ok outClean :: .ok outBlank ::
        .ok outDirty1 :: ([outBlank].map .ok ++ (.ok outClean :: []))))).1 = .ok () ∧
     ((update "w" false false (St.init (.ok outClean :: .ok outBlank ::
        .ok outDirty1 :: ([outBlank].map .ok ++ (.ok outClean :: []))))).2).calls =
       statusInv "w" :: updateInv "w" :: statusInv "w" ::
         ([chA].map (fun c => undoInv c.path "w") ++ [statusInv "w"]) ∧
     ((update "w" false false (St.init (.ok outClean :: .ok outBlank ::
        .ok outDirty1 :: ([outBlank].map .ok ++ (.ok outClean :: []))))).2).calls.countP
       isStatusInv = 3 ∧
     ((update "w" false false (St.init (.ok outClean :: .ok outBlank ::
        .ok outDirty1 :: ([outBlank].map .ok ++ (.ok outClean :: []))))).2).calls.countP
       isUpdateInv = 1 ∧
     ((update "w" false false (St.init (.ok outClean :: .ok outBlank ::
        .ok outDirty1 :: ([outBlank].map .ok ++ (.ok outClean :: []))))).2).calls.countP
       isUndoInv = ([chA] : List Change).length ∧
     ((update "w" false false (St.init (.ok outClean :: .ok outBlank ::
        .ok outDirty1 :: ([outBlank].map .ok ++ (.ok outClean :: []))))).2).env = []) :=
  ⟨outClean_decodes, outDirty1_decodes, by simp, rfl,
    update_composition "w" false false outClean outBlank outDirty1 outClean
      [chA] [outBlank] [] outClean_decodes outDirty1_decodes (by simp) rfl
      outClean_decodes⟩

/-- Claim C5: a structured status document whose change collection is
absent, or present but empty, decodes to the empty status — success, not
an error; and whenever the captured output does not deserialize,
`get_status` fails with a decode error carrying the lossily converted
captured text. -/
theorem decode_robustness :
    (∀ (name : String) (attrs : List (String × String)) (children : List Xml),
      (∀ c ∈ elemsNamed "Changes" children,
        elemsNamed "Change" (elemChildren c) = []) →
      decodeStatusOutput (.elem name attrs children) = .ok ⟨⟨[]⟩⟩) ∧
    (∀ (wd : String) (v l : Bool) (out : Output) (m : String)
      (rest : List ProcResult) (calls : List Invocation) (console : List String),
      from_str (from_utf8_lossy out.stdout) = .error m →
      (get_status wd v l ⟨.ok out :: rest, calls, console⟩).1 =
        .error (.decode (from_utf8_lossy out.stdout))) := by
  constructor
  · intro name attrs children hempty
    simp only [decodeStatusOutput]
    cases h : elemsNamed "Changes" children with
    | nil => rfl
    | cons c cr =>
      have hc : c ∈ elemsNamed "Changes" children := by
        rw [h]
        exact List.mem_cons_self c cr
      have hcc := hempty c hc
      have hcf : c ∈ children.filter (fun x =>
          match x with
          | .elem n _ _ => n == "Changes"
          | .text _ => false) := hc
      rw [List.mem_filter] at hcf
      cases c with
      | text t => simp at hcf
      | elem n a ch =>
        have hdc : decodeChanges (.elem n a ch) = .ok ⟨[]⟩ := by
          simp only [decodeChanges]
          have : elemsNamed "Change" ch = [] := hcc
          rw [this]
          rfl
        simp [hdc]
  · intro wd v l out m rest calls console h
    obtain ⟨con, heq⟩ := get_status_decode_err_eq wd v l out m rest calls console h
    rw [heq]

/-- Witness for C5: an empty-collection document decodes to the empty
status, and garbage output makes the query fail with the decode error
carrying the converted text. -/
theorem decode_robustness_witness :
    (∀ c ∈ elemsNamed "Changes" ([] : List Xml),
      elemsNamed "Change" (elemChildren c) = []) ∧
    decodeStatusOutput (.elem "StatusOutput" [] []) = .ok ⟨⟨[]⟩⟩ ∧
    from_str (from_utf8_lossy outGarbage.stdout) = .error "expected element" ∧
    (get_status "w" false false ⟨[.ok outGarbage], [], []⟩).1 =
      .error (.decode (from_utf8_lossy outGarbage.stdout)) :=
  ⟨by simp [elemsNamed],
    decode_robustness.1 "StatusOutput" [] [] (by simp [elemsNamed]),
    rfl,
    decode_robustness.2 "w" false false outGarbage "expected element"
      [] [] [] rfl⟩

/-- Claim C6: any failure of the status query or of an undo call aborts
the convergence loop immediately and propagates that error: no further
undo call or status query is issued, the scripted responses after the
failure are left untouched, and the undos already applied remain in the
recorded trace — nothing rolls them back. -/
theorem ensure_clean_failure_short_circuit (wd : String) (v l : Bool)
    (steps : List ScriptStep) (hwf : ∀ st ∈ steps, st.wf) :
    (∀ (rest : List ProcResult),
      (ensure_clean wd v l (St.init (scriptEnv steps ++ .fail :: rest))).1 =
        .error (.toolInvocation "Error during `cm status`") ∧
      ((ensure_clean wd v l (St.init (scriptEnv steps ++ .fail :: rest))).2).calls =
        scriptCalls wd steps ++ [statusInv wd] ∧
      ((ensure_clean wd v l (St.init (scriptEnv steps ++ .fail :: rest))).2).env =
        rest) ∧
    (∀ (dOut : Output) (cs : List Change) (okUndos : List Output),
      from_str (from_utf8_lossy dOut.stdout) = .ok ⟨⟨cs⟩⟩ →
      okUndos.length < cs.length →
      ∀ (rest : List ProcResult),
      (ensure_clean wd v l (St.init (scriptEnv steps ++
          .ok dOut :: (okUndos.map .ok ++ .fail :: rest)))).1 =
        .error (.toolInvocation "Error during `cm undo`") ∧
      ((ensure_clean wd v l (St.init (scriptEnv steps ++
          .ok dOut :: (okUndos.map .ok ++ .fail :: rest)))).2).calls =
        (scriptCalls wd steps ++ [statusInv wd]) ++
          (cs.take (okUndos.length + 1)).map (fun c => undoInv c.path wd) ∧
      ((ensure_clean wd v l (St.init (scriptEnv steps ++
          .ok dOut :: (okUndos.map .ok ++ .fail :: rest)))).2).env = rest) := by
  constructor
  · intro rest
    obtain ⟨con, h⟩ := ensureLoop_script_statusFail wd v l steps hwf rest []
      (if v then ["* Ensure clean workspace"] else [])
    have h' : ensure_clean wd v l (St.init (scriptEnv steps ++ .fail :: rest)) =
        (.error (.toolInvocation "Error during `cm status`"),
          ⟨rest, ([] ++ scriptCalls wd steps) ++ [statusInv wd], con⟩) := h
    rw [h']
    exact ⟨rfl, by simp, rfl⟩
  · intro dOut cs okUndos hdec hlt rest
    obtain ⟨con, h⟩ := ensureLoop_script_undoFail wd v l steps hwf dOut cs okUndos
      hdec hlt rest [] (if v then ["* Ensure clean workspace"] else [])
    have h' : ensure_clean wd v l (St.init (scriptEnv steps ++
        .ok dOut :: (okUndos.map .ok ++ .fail :: rest))) =
        (.error (.toolInvocation "Error during `cm undo`"),
          ⟨rest, (([] ++ scriptCalls wd steps) ++ [statusInv wd]) ++
            (cs.take (okUndos.length + 1)).map (fun c => undoInv c.path wd), con⟩) := h
    rw [h']
    exact ⟨rfl, by simp, rfl⟩

/-- Witness for C6: after one completed dirty iteration, a failing status
query aborts with the status error; and a first undo that cannot run
aborts with the undo error, the failing call being the last recorded. -/
theorem ensure_clean_failure_short_circuit_witness :
    (∀ st ∈ [demoStep], st.wf) ∧
    from_str (from_utf8_lossy outDirty1.stdout) = .ok ⟨⟨[chA]⟩⟩ ∧
    ([] : List Output).length < ([chA] : List Change).length ∧
    ((ensure_clean "w" false false
        (St.init (scriptEnv [demoStep] ++ .fail :: []))).1 =
      .error (.toolInvocation "Error during `cm status`") ∧
     ((ensure_clean "w" false false
        (St.init (scriptEnv [demoStep] ++ .fail :: []))).2).calls =
       scriptCalls "w" [demoStep] ++ [statusInv "w"] ∧
     ((ensure_clean "w" false false
        (St.init (scriptEnv [demoStep] ++ .fail :: []))).2).env = []) ∧
    ((ensure_clean "w" false false (St.init (scriptEnv [demoStep] ++
        .ok outDirty1 :: (([] : List Output).map .ok ++ .fail :: [])))).1 =
      .error (.toolInvocation "Error during `cm undo`") ∧
     ((ensure_clean "w" false false (St.init (scriptEnv [demoStep] ++
        .ok outDirty1 :: (([] : List Output).map .ok ++ .fail :: [])))).2).calls =
       (scriptCalls "w" [demoStep] ++ [statusInv "w"]) ++
         (([chA] : List Change).take (([] : List Output).length + 1)).map
           (fun c => undoInv c.path "w") ∧
     ((ensure_clean "w" false false (St.init (scriptEnv [demoStep] ++
        .ok outDirty1 :: (([] : List Output).map .ok ++ .fail :: [])))).2).env =
       []) :=
  ⟨demoStep_wf, outDirty1_decodes, by simp,
    (ensure_clean_failure_short_circuit "w" false false [demoStep] demoStep_wf).1 [],
    (ensure_clean_failure_short_circuit "w" false false [demoStep] demoStep_wf).2
      outDirty1 [chA] [] outDirty1_decodes (by simp) []⟩

/-- Counterexample to C7 as stated: a status document whose one change
entry has no path field is decoded successfully by the status reader,
producing a change whose path is the empty string — the reader does not
guarantee non-empty paths. -/
theorem change_path_nonempty_counterexample :
    ¬ (∀ so, (get_status "w" false false (St.init [.ok outNoPath])).1 = .ok so →
        ∀ c ∈ so.changes.changes, c.path ≠ "") := by
  intro hclaim
  have h : (get_status "w" false false (St.init [.ok outNoPath])).1 =
      .ok ⟨⟨[⟨"", ""⟩]⟩⟩ := rfl
  exact hclaim ⟨⟨[⟨"", ""⟩]⟩⟩ h ⟨"", ""⟩ (by simp) rfl

/-- Claim C7 (amended): the path field is optional at the decoding-schema
level and defaults to the empty string — a change entry with no path
attribute and no path child element decodes, whenever it decodes at all,
to a change whose path is the empty string; the status reader performs no
non-emptiness validation, so non-emptiness is a property of the external
tool's output, not one the program enforces. -/
theorem decodeChange_default_path (name : String)
    (attrs : List (String × String)) (children : List Xml) (c : Change)
    (hattr : ∀ a ∈ attrs, a.1 ≠ "Path")
    (hchild : elemsNamed "Path" children = [])
    (hdec : decodeChange (.elem name attrs children) = .ok c) :
    c.path = "" := by
  have hfind : attrs.find? (fun a => a.1 == "Path") = none := by
    rw [List.find?_eq_none]
    intro x hx
    simp [hattr x hx]
  have hfv : fieldValue "Path" attrs children = .ok none := by
    simp [fieldValue, hfind, hchild]
  simp only [decodeChange, hfv] at hdec
  cases hsz : fieldValue "PrintableSize" attrs children with
  | error e =>
    rw [hsz] at hdec
    simp at hdec
  | ok sz =>
    rw [hsz] at hdec
    simp at hdec
    rw [← hdec]

/-- Witness for C7 (amended): a bare change element decodes to the
empty-path change. -/
theorem decodeChange_default_path_witness :
    (∀ a ∈ ([] : List (String × String)), a.1 ≠ "Path") ∧
    elemsNamed "Path" ([] : List Xml) = [] ∧
    decodeChange (.elem "Change" [] []) = .ok ⟨"", ""⟩ ∧
    (⟨"", ""⟩ : Change).path = "" :=
  ⟨by simp, rfl, rfl,
    decodeChange_default_path "Change" [] [] ⟨"", ""⟩ (by simp) rfl rfl⟩

/-- Claim C8: `undo` fails with the tool-invocation error exactly when
the external process cannot be started or run to completion (a failing
response, or an exhausted script); whenever the process runs to
completion, `undo` succeeds, whatever the process's exit code, stdout
and stderr. -/
theorem undo_tool_error_iff (c : Change) (wd : String) (v l : Bool) (s : St) :
    ((undo c wd v l s).1 = .ok () ↔ ∃ out rest, s.env = .ok out :: rest) ∧
    ((undo c wd v l s).1 = .error (.toolInvocation "Error during `cm undo`") ↔
      (s.env = [] ∨ ∃ rest, s.env = .fail :: rest)) := by
  cases s with
  | mk env calls console =>
    cases env with
    | nil => constructor <;> simp [undo, runCmd, emitAll]
    | cons r rest =>
      cases r with
      | ok out => constructor <;> simp [undo, runCmd, emitAll]
      | fail => constructor <;> simp [undo, runCmd, emitAll]

/-- Claim C10: status decoding consumes only the captured stdout after
lossy UTF-8 conversion.  The query's outcome is fully determined by the
lossily converted stdout text — stderr and the exit code are never
decoded — and, the conversion being total, a decode failure arises
exactly when the converted text does not match the schema, the error
then carrying that text. -/
theorem get_status_stdout_only (wd : String) (v l : Bool) (out : Output)
    (rest : List ProcResult) (calls : List Invocation) (console : List String) :
    (get_status wd v l ⟨.ok out :: rest, calls, console⟩).1 =
      (match from_str (from_utf8_lossy out.stdout) with
       | .ok so => .ok so
       | .error _ => .error (.decode (from_utf8_lossy out.stdout))) ∧
    (∀ (err2 : List Nat) (code2 : Int),
      (get_status wd v l ⟨.ok ⟨out.stdout, err2, code2⟩ :: rest, calls, console⟩).1 =
        (get_status wd v l ⟨.ok out :: rest, calls, console⟩).1) ∧
    ((get_status wd v l ⟨.ok out :: rest, calls, console⟩).2).env = rest ∧
    ((get_status wd v l ⟨.ok out :: rest, calls, console⟩).2).calls =
      calls ++ [statusInv wd] := by
  cases hfs : from_str (from_utf8_lossy out.stdout) with
  | ok so =>
    obtain ⟨con, h⟩ := get_status_ok_eq wd v l out so rest calls console hfs
    refine ⟨by simp [h], ?_, by rw [h], by rw [h]⟩
    intro err2 code2
    obtain ⟨con2, h2⟩ := get_status_ok_eq wd v l ⟨out.stdout, err2, code2⟩ so
      rest calls console hfs
    rw [h, h2]
  | error m =>
    obtain ⟨con, h⟩ := get_status_decode_err_eq wd v l out m rest calls console hfs
    refine ⟨by simp [h], ?_, by rw [h], by rw [h]⟩
    intro err2 code2
    obtain ⟨con2, h2⟩ := get_status_decode_err_eq wd v l ⟨out.stdout, err2, code2⟩ m
      rest calls console hfs
    rw [h, h2]

/-- The result, consumed script, and issued invocation of a status query
are determined by the script alone — the verbose and log toggles and the
prior console content never influence them. -/
theorem get_status_obs (wd : String) (env : List ProcResult) :
    ∃ (r : Except Err StatusOutput) (env' : List ProcResult),
      (∀ so, r = .ok so → env'.length < env.length) ∧
      ∀ (v l : Bool) (calls : List Invocation) (console : List String),
        (get_status wd v l ⟨env, calls, console⟩).1 = r ∧
        ((get_status wd v l ⟨env, calls, console⟩).2).env = env' ∧
        ((get_status wd v l ⟨env, calls, console⟩).2).calls =
          calls ++ [statusInv wd] := by
  cases env with
  | nil =>
    refine ⟨.error (.toolInvocation "Error during `cm status`"), [], ?_, ?_⟩
    · intro so h
      simp at h
    · intro v l calls console
      refine ⟨?_, ?_, ?_⟩ <;> simp [get_status, runCmd, emitAll]
  | cons r rest =>
    cases r with
    | fail =>
      refine ⟨.error (.toolInvocation "Error during `cm status`"), rest, ?_, ?_⟩
      · intro so h
        simp at h
      · intro v l calls console
        obtain ⟨con, h⟩ := get_status_fail_eq wd v l rest calls console
        exact ⟨by rw [h], by rw [h], by rw [h]⟩
    | ok out =>
      cases hfs : from_str (from_utf8_lossy out.stdout) with
      | ok so =>
        refine ⟨.ok so, rest, ?_, ?_⟩
        · intro so' h
          simp [List.length_cons]
        · intro v l calls console
          obtain ⟨con, h⟩ := get_status_ok_eq wd v l out so rest calls console hfs
          exact ⟨by rw [h], by rw [h], by rw [h]⟩
      | error m =>
        refine ⟨.error (.decode (from_utf8_lossy out.stdout)), rest, ?_, ?_⟩
        · intro so h
          simp at h
        · intro v l calls console
          obtain ⟨con, h⟩ := get_status_decode_err_eq wd v l out m rest calls
            console hfs
          exact ⟨by rw [h], by rw [h], by rw [h]⟩

/-- The result, consumed script, and issued invocation of an undo call
are determined by the script alone. -/
theorem undo_obs (c : Change) (wd : String) (env : List ProcResult) :
    ∃ (r : Except Err Unit) (env' : List ProcResult),
      env'.length ≤ env.length ∧
      ∀ (v l : Bool) (calls : List Invocation) (console : List String),
        (undo c wd v l ⟨env, calls, console⟩).1 = r ∧
        ((undo c wd v l ⟨env, calls, console⟩).2).env = env' ∧
        ((undo c wd v l ⟨env, calls, console⟩).2).calls =
          calls ++ [undoInv c.path wd] := by
  cases env with
  | nil =>
    refine ⟨.error (.toolInvocation "Error during `cm undo`"), [], by simp, ?_⟩
    intro v l calls console
    refine ⟨?_, ?_, ?_⟩ <;> simp [undo, runCmd, emitAll]
  | cons r rest =>
    cases r with
    | fail =>
      refine ⟨.error (.toolInvocation "Error during `cm undo`"), rest, by simp, ?_⟩
      intro v l calls console
      obtain ⟨con, h⟩ := undo_fail_eq c wd v l rest calls console
      exact ⟨by rw [h], by rw [h], by rw [h]⟩
    | ok out =>
      refine ⟨.ok (), rest, by simp, ?_⟩
      intro v l calls console
      obtain ⟨con, h⟩ := undo_ok_eq c wd v l out rest calls console
      exact ⟨by rw [h], by rw [h], by rw [h]⟩

/-- The result, consumed script, and issued invocation of an update call
are determined by the script alone. -/
theorem update_latest_obs (wd : String) (env : List ProcResult) :
    ∃ (r : Except Err Unit) (env' : List ProcResult),
      ∀ (v l : Bool) (calls : List Invocation) (console : List String),
        (update_latest wd v l ⟨env, calls, console⟩).1 = r ∧
        ((update_latest wd v l ⟨env, calls, console⟩).2).env = env' ∧
        ((update_latest wd v l ⟨env, calls, console⟩).2).calls =
          calls ++ [updateInv wd] := by
  cases env with
  | nil =>
    refine ⟨.error (.toolInvocation "Error during `cm update`"), [], ?_⟩
    intro v l calls console
    refine ⟨?_, ?_, ?_⟩ <;> simp [update_latest, runCmd, emitAll]
  | cons r rest =>
    cases r with
    | fail =>
      refine ⟨.error (.toolInvocation "Error during `cm update`"), rest, ?_⟩
      intro v l calls console
      refine ⟨?_, ?_, ?_⟩ <;> simp [update_latest, runCmd, emitAll]
    | ok out =>
      refine ⟨.ok (), rest, ?_⟩
      intro v l calls console
      obtain ⟨con, h⟩ := update_latest_ok_eq wd v l out rest calls console
      exact ⟨by rw [h], by rw [h], by rw [h]⟩

/-- The results, consumed script, and issued invocations of the undo loop
are determined by the change list and the script alone. -/
theorem cleanupLoop_obs (wd : String) :
    ∀ (cs : List Change) (env : List ProcResult),
    ∃ (r : Except Err Unit) (env' : List ProcResult) (nc : List Invocation),
      env'.length ≤ env.length ∧
      ∀ (v l : Bool) (calls : List Invocation) (console : List String),
        (cleanupLoop cs wd v l ⟨env, calls, console⟩).1 = r ∧
        ((cleanupLoop cs wd v l ⟨env, calls, console⟩).2).env = env' ∧
        ((cleanupLoop cs wd v l ⟨env, calls, console⟩).2).calls = calls ++ nc := by
  intro cs
  induction cs with
  | nil =>
    intro env
    refine ⟨.ok (), env, [], le_refl _, ?_⟩
    intro v l calls console
    refine ⟨rfl, rfl, by simp [cleanupLoop]⟩
  | cons c cs ih =>
    intro env
    obtain ⟨r1, env1, hle1, hu⟩ := undo_obs c wd env
    cases r1 with
    | error e =>
      refine ⟨.error e, env1, [undoInv c.path wd], hle1, ?_⟩
      intro v l calls console
      obtain ⟨h1, h2, h3⟩ := hu v l calls console
      refine ⟨?_, ?_, ?_⟩ <;> simp [cleanupLoop, h1, h2, h3]
    | ok u =>
      obtain ⟨r2, env2, nc2, hle2, hc⟩ := ih env1
      refine ⟨r2, env2, undoInv c.path wd :: nc2, le_trans hle2 hle1, ?_⟩
      intro v l calls console
      obtain ⟨h1, h2, h3⟩ := hu v l calls console
      have hstate : (undo c wd v l ⟨env, calls, console⟩).2 =
          ⟨env1, calls ++ [undoInv c.path wd],
            ((undo c wd v l ⟨env, calls, console⟩).2).console⟩ := by
        rw [← h2, ← h3]
      obtain ⟨g1, g2, g3⟩ := hc v l (calls ++ [undoInv c.path wd])
        ((undo c wd v l ⟨env, calls, console⟩).2).console
      refine ⟨?_, ?_, ?_⟩
      · simp only [cleanupLoop, h1]
        rw [hstate]
        exact g1
      · simp only [cleanupLoop, h1]
        rw [hstate]
        exact g2
      · simp only [cleanupLoop, h1]
        rw [hstate, g3]
        simp

/-- The results, consumed script, and issued invocations of `cleanup` are
determined by the change list and the script alone. -/
theorem cleanup_obs (wd : String) (cs : List Change) (env : List ProcResult) :
    ∃ (r : Except Err Unit) (env' : List ProcResult) (nc : List Invocation),
      env'.length ≤ env.length ∧
      ∀ (v l : Bool) (calls : List Invocation) (console : List String),
        (cleanup cs wd v l ⟨env, calls, console⟩).1 = r ∧
        ((cleanup cs wd v l ⟨env, calls, console⟩).2).env = env' ∧
        ((cleanup cs wd v l ⟨env, calls, console⟩).2).calls = calls ++ nc := by
  obtain ⟨r, env', nc, hle, h⟩ := cleanupLoop_obs wd cs env
  refine ⟨r, env', nc, hle, ?_⟩
  intro v l calls console
  exact h v l calls (console ++ (if v then ["* Undo changes"] else []))

/-- The result, consumed script, and issued invocations of the
convergence loop are determined by the script alone — never by the
verbose or log toggle or by prior console content. -/
theorem ensureLoop_obs_bounded (wd : String) :
    ∀ (n : Nat) (env : List ProcResult), env.length < n →
    ∃ (r : Except Err Unit) (env' : List ProcResult) (nc : List Invocation),
      ∀ (v l : Bool) (calls : List Invocation) (console : List String),
        (ensureLoop wd v l ⟨env, calls, console⟩).1 = r ∧
        ((ensureLoop wd v l ⟨env, calls, console⟩).2).env = env' ∧
        ((ensureLoop wd v l ⟨env, calls, console⟩).2).calls = calls ++ nc := by
  intro n
  induction n with
  | zero =>
    intro env h
    exact absurd h (Nat.not_lt_zero _)
  | succ n ih =>
    intro env hlen
    obtain ⟨r1, env1, hlt, hg⟩ := get_status_obs wd env
    cases r1 with
    | error e =>
      refine ⟨.error e, env1, [statusInv wd], ?_⟩
      intro v l calls console
      obtain ⟨h1, h2, h3⟩ := hg v l calls console
      have hfull : get_status wd v l ⟨env, calls, console⟩ =
          (.error e, ⟨env1, calls ++ [statusInv wd],
            ((get_status wd v l ⟨env, calls, console⟩).2).console⟩) := by
        rw [← h1, ← h2, ← h3]
      have hstep := ensureLoop_step_err wd v l ⟨env, calls, console⟩ _ e hfull
      exact ⟨by rw [hstep], by rw [hstep], by rw [hstep]⟩
    | ok so =>
      by_cases hemp : so.changes.changes = []
      · refine ⟨.ok (), env1, [statusInv wd], ?_⟩
        intro v l calls console
        obtain ⟨h1, h2, h3⟩ := hg v l calls console
        have hfull : get_status wd v l ⟨env, calls, console⟩ =
            (.ok so, ⟨env1, calls ++ [statusInv wd],
              ((get_status wd v l ⟨env, calls, console⟩).2).console⟩) := by
          rw [← h1, ← h2, ← h3]
        have hstep := ensureLoop_step_clean wd v l ⟨env, calls, console⟩ _ so
          hfull hemp
        exact ⟨by rw [hstep], by rw [hstep], by rw [hstep]⟩
      · obtain ⟨r2, env2, nc2, hle2, hcl⟩ := cleanup_obs wd so.changes.changes env1
        cases r2 with
        | error e2 =>
          refine ⟨.error e2, env2, statusInv wd :: nc2, ?_⟩
          intro v l calls console
          obtain ⟨h1, h2, h3⟩ := hg v l calls console
          have hfull : get_status wd v l ⟨env, calls, console⟩ =
              (.ok so, ⟨env1, calls ++ [statusInv wd],
                ((get_status wd v l ⟨env, calls, console⟩).2).console⟩) := by
            rw [← h1, ← h2, ← h3]
          obtain ⟨g1, g2, g3⟩ := hcl v l (calls ++ [statusInv wd])
            (((get_status wd v l ⟨env, calls, console⟩).2).console ++
              pendingLines v so.changes.changes)
          have hclfull : cleanup so.changes.changes wd v l
              (emitAll (pendingLines v so.changes.changes)
                ⟨env1, calls ++ [statusInv wd],
                  ((get_status wd v l ⟨env, calls, console⟩).2).console⟩) =
              (.error e2, ⟨env2, (calls ++ [statusInv wd]) ++ nc2,
                ((cleanup so.changes.changes wd v l
                  ⟨env1, calls ++ [statusInv wd],
                    ((get_status wd v l ⟨env, calls, console⟩).2).console ++
                      pendingLines v so.changes.changes⟩).2).console⟩) := by
            rw [← g1, ← g2, ← g3]
            rfl
          have hstep := ensureLoop_step_dirty_err wd v l ⟨env, calls, console⟩ _ _
            so e2 hfull hemp hclfull
          refine ⟨by rw [hstep], by rw [hstep], ?_⟩
          rw [hstep]
          simp
        | ok u2 =>
          have hlt1 : env1.length < env.length := hlt so rfl
          have hlt2 : env2.length < n := by
            have := le_trans hle2 (Nat.le_of_lt hlt1)
            omega
          obtain ⟨r3, env3, nc3, hrec⟩ := ih env2 hlt2
          refine ⟨r3, env3, statusInv wd :: (nc2 ++ nc3), ?_⟩
          intro v l calls console
          obtain ⟨h1, h2, h3⟩ := hg v l calls console
          have hfull : get_status wd v l ⟨env, calls, console⟩ =
              (.ok so, ⟨env1, calls ++ [statusInv wd],
                ((get_status wd v l ⟨env, calls, console⟩).2).console⟩) := by
            rw [← h1, ← h2, ← h3]
          obtain ⟨g1, g2, g3⟩ := hcl v l (calls ++ [statusInv wd])
            (((get_status wd v l ⟨env, calls, console⟩).2).console ++
              pendingLines v so.changes.changes)
          have hclfull : cleanup so.changes.changes wd v l
              (emitAll (pendingLines v so.changes.changes)
                ⟨env1, calls ++ [statusInv wd],
                  ((get_status wd v l ⟨env, calls, console⟩).2).console⟩) =
              (.ok u2, ⟨env2, (calls ++ [statusInv wd]) ++ nc2,
                ((cleanup so.changes.changes wd v l
                  ⟨env1, calls ++ [statusInv wd],
                    ((get_status wd v l ⟨env, calls, console⟩).2).console ++
                      pendingLines v so.changes.changes⟩).2).console⟩) := by
            rw [← g1, ← g2, ← g3]
            rfl
          have hstep := ensureLoop_step_dirty wd v l ⟨env, calls, console⟩ _ _
            so u2 hfull hemp hclfull
          obtain ⟨k1, k2, k3⟩ := hrec v l ((calls ++ [statusInv wd]) ++ nc2)
            (((cleanup so.changes.changes wd v l
              ⟨env1, calls ++ [statusInv wd],
                ((get_status wd v l ⟨env, calls, console⟩).2).console ++
                  pendingLines v so.changes.changes⟩).2).console)
          refine ⟨?_, ?_, ?_⟩
          · rw [hstep]
            exact k1
          · rw [hstep]
            exact k2
          · rw [hstep, k3]
            simp

/-- The result, consumed script, and issued invocations of `ensure_clean`
are determined by the script alone. -/
theorem ensure_clean_obs (wd : String) (env : List ProcResult) :
    ∃ (r : Except Err Unit) (env' : List ProcResult) (nc : List Invocation),
      ∀ (v l : Bool) (calls : List Invocation) (console : List String),
        (ensure_clean wd v l ⟨env, calls, console⟩).1 = r ∧
        ((ensure_clean wd v l ⟨env, calls, console⟩).2).env = env' ∧
        ((ensure_clean wd v l ⟨env, calls, console⟩).2).calls = calls ++ nc := by
  obtain ⟨r, env', nc, h⟩ := ensureLoop_obs_bounded wd (env.length + 1) env
    (Nat.lt_succ_self _)
  refine ⟨r, env', nc, ?_⟩
  intro v l calls console
  exact h v l calls (console ++ (if v then ["* Ensure clean workspace"] else []))

/-- The result, consumed script, and issued invocations of `update` are
determined by the script alone. -/
theorem update_obs (wd : String) (env : List ProcResult) :
    ∃ (r : Except Err Unit) (env' : List ProcResult) (nc : List Invocation),
      ∀ (v l : Bool) (calls : List Invocation) (console : List String),
        (update wd v l ⟨env, calls, console⟩).1 = r ∧
        ((update wd v l ⟨env, calls, console⟩).2).env = env' ∧
        ((update wd v l ⟨env, calls, console⟩).2).calls = calls ++ nc := by
  obtain ⟨r1, env1, nc1, h1⟩ := ensure_clean_obs wd env
  cases r1 with
  | error e =>
    refine ⟨.error e, env1, nc1, ?_⟩
    intro v l calls console
    obtain ⟨a1, a2, a3⟩ := h1 v l calls console
    refine ⟨?_, ?_, ?_⟩ <;> simp [update, a1, a2, a3]
  | ok u =>
    obtain ⟨r2, env2, h2⟩ := update_latest_obs wd env1
    cases r2 with
    | error e2 =>
      refine ⟨.error e2, env2, nc1 ++ [updateInv wd], ?_⟩
      intro v l calls console
      obtain ⟨a1, a2, a3⟩ := h1 v l calls console
      have hstate : (ensure_clean wd v l ⟨env, calls, console⟩).2 =
          ⟨env1, calls ++ nc1,
            ((ensure_clean wd v l ⟨env, calls, console⟩).2).console⟩ := by
        rw [← a2, ← a3]
      obtain ⟨b1, b2, b3⟩ := h2 v l (calls ++ nc1)
        ((ensure_clean wd v l ⟨env, calls, console⟩).2).console
      refine ⟨?_, ?_, ?_⟩
      · simp only [update, a1]
        rw [hstate]
        simp only [b1]
      · simp only [update, a1]
        rw [hstate]
        simp only [b1, b2]
      · simp only [update, a1]
        rw [hstate]
        simp only [b1, b3]
        simp
    | ok u2 =>
      obtain ⟨r3, env3, nc3, h3⟩ := ensure_clean_obs wd env2
      refine ⟨r3, env3, (nc1 ++ [updateInv wd]) ++ nc3, ?_⟩
      intro v l calls console
      obtain ⟨a1, a2, a3⟩ := h1 v l calls console
      have hstate : (ensure_clean wd v l ⟨env, calls, console⟩).2 =
          ⟨env1, calls ++ nc1,
            ((ensure_clean wd v l ⟨env, calls, console⟩).2).console⟩ := by
        rw [← a2, ← a3]
      obtain ⟨b1, b2, b3⟩ := h2 v l (calls ++ nc1)
        ((ensure_clean wd v l ⟨env, calls, console⟩).2).console
      have hstate2 : (update_latest wd v l ⟨env1, calls ++ nc1,
          ((ensure_clean wd v l ⟨env, calls, console⟩).2).console⟩).2 =
          ⟨env2, (calls ++ nc1) ++ [updateInv wd],
            ((update_latest wd v l ⟨env1, calls ++ nc1,
              ((ensure_clean wd v l ⟨env, calls, console⟩).2).console⟩).2).console⟩ := by
        rw [← b2, ← b3]
      obtain ⟨k1, k2, k3⟩ := h3 v l ((calls ++ nc1) ++ [updateInv wd])
        ((update_latest wd v l ⟨env1, calls ++ nc1,
          ((ensure_clean wd v l ⟨env, calls, console⟩).2).console⟩).2).console
      refine ⟨?_, ?_, ?_⟩
      · simp only [update, a1]
        rw [hstate]
        simp only [b1]
        rw [hstate2]
        exact k1
      · simp only [update, a1]
        rw [hstate]
        simp only [b1]
        rw [hstate2]
        exact k2
      · simp only [update, a1]
        rw [hstate]
        simp only [b1]
        rw [hstate2, k3]
        simp

/-- Claim C9: for every working directory and every fixed script of
external responses, the outcome, the sequence of external invocations
(status queries, undo calls with their paths, update calls), and the
consumed script of both `ensure_clean` and `update` are identical for
every combination of the verbose and log toggles — the toggles affect
diagnostic console output only, never control flow. -/
theorem toggles_no_control_flow (wd : String) (env : List ProcResult)
    (v1 l1 v2 l2 : Bool) :
    ((ensure_clean wd v1 l1 (St.init env)).1 =
       (ensure_clean wd v2 l2 (St.init env)).1 ∧
     ((ensure_clean wd v1 l1 (St.init env)).2).calls =
       ((ensure_clean wd v2 l2 (St.init env)).2).calls ∧
     ((ensure_clean wd v1 l1 (St.init env)).2).env =
       ((ensure_clean wd v2 l2 (St.init env)).2).env) ∧
    ((update wd v1 l1 (St.init env)).1 = (update wd v2 l2 (St.init env)).1 ∧
     ((update wd v1 l1 (St.init env)).2).calls =
       ((update wd v2 l2 (St.init env)).2).calls ∧
     ((update wd v1 l1 (St.init env)).2).env =
       ((update wd v2 l2 (St.init env)).2).env) := by
  obtain ⟨r, env', nc, h⟩ := ensure_clean_obs wd env
  obtain ⟨ru, envu, ncu, hu⟩ := update_obs wd env
  obtain ⟨a1, a2, a3⟩ := h v1 l1 [] []
  obtain ⟨b1, b2, b3⟩ := h v2 l2 [] []
  obtain ⟨c1, c2, c3⟩ := hu v1 l1 [] []
  obtain ⟨d1, d2, d3⟩ := hu v2 l2 [] []
  exact ⟨⟨a1.trans b1.symm, a3.trans b3.symm, a2.trans b2.symm⟩,
    ⟨c1.trans d1.symm, c3.trans d3.symm, c2.trans d2.symm⟩⟩

end PlasticAutomate
